import Mathlib

/-!
Verification development for the preload-ng prediction/prefetch core.

Each section embeds one component of the C source as Lean definitions
(pure functions over explicit state) and proves properties of the
embedding.  Machine integers (`int`, `size_t`) are modelled as `Int`/`Nat`
(the quantities involved are small; no overflow wrap is exercised by the
code paths modelled here), C `double` values as `ℚ` where the code only
stores and compares them and as `ℝ` where the code takes square roots.
-/

namespace Preload

/-! ## Readahead scheduler (src/core/readahead.c)

`preload_readahead` walks the (sorted) request array keeping one pending
request `(path, offset, length)` and merges a request into the pending one
when it is on the same path and its offset lies in
`[offset, offset + length]`; the merge sets
`length = files[i]->offset + files[i]->length - offset`.
-/

structure MapReq where
  path : String
  offset : Nat
  length : Nat
deriving DecidableEq, Repr

/-- The coalescing loop of `preload_readahead` (readahead.c:297-327),
with `pending` holding the C locals `path`/`offset`/`length`.
Bytes are issued via `process_file` for each emitted request. -/
def coalesceGo (pending : MapReq) : List MapReq → List MapReq
  | [] => [pending]
  | f :: rest =>
    if pending.offset ≤ f.offset ∧ f.offset ≤ pending.offset + pending.length ∧
        pending.path = f.path then
      coalesceGo { pending with length := f.offset + f.length - pending.offset } rest
    else
      pending :: coalesceGo f rest

/-- `preload_readahead` with `SORT_NONE` (the sort leaves the array as
given; for the other strategies the array is first permuted, which does
not change the union of requested bytes).  Returns the list of issued
requests; the C function's return value is its length. -/
def preload_readahead : List MapReq → List MapReq
  | [] => []
  | f :: rest => coalesceGo f rest

/-- Request `r` asks for byte `b` of the file at `p`. -/
def Covers (r : MapReq) (p : String) (b : Nat) : Prop :=
  r.path = p ∧ r.offset ≤ b ∧ b < r.offset + r.length

instance (r : MapReq) (p : String) (b : Nat) : Decidable (Covers r p b) := by
  unfold Covers; infer_instance

/-- Byte `b` of path `p` is in the union of byte ranges of the request
list `l`. -/
def InUnion (l : List MapReq) (p : String) (b : Nat) : Prop :=
  ∃ r ∈ l, Covers r p b

instance (l : List MapReq) (p : String) (b : Nat) : Decidable (InUnion l p b) :=
  List.decidableBEx _ l

lemma coalesceGo_union_subset (rest : List MapReq) :
    ∀ (pending : MapReq) (p : String) (b : Nat),
      InUnion (coalesceGo pending rest) p b →
      Covers pending p b ∨ InUnion rest p b := by
  induction rest with
  | nil =>
      intro pending p b h
      rcases h with ⟨r, hr, hc⟩
      simp only [coalesceGo, List.mem_singleton] at hr
      subst hr
      exact Or.inl hc
  | cons f rest ih =>
      intro pending p b h
      rw [coalesceGo] at h
      by_cases hm : pending.offset ≤ f.offset ∧ f.offset ≤ pending.offset + pending.length ∧
          pending.path = f.path
      · rw [if_pos hm] at h
        rcases ih _ p b h with hc | hu
        · -- byte covered by the merged pending request:
          -- it is covered by the old pending request or by `f`.
          rcases hc with ⟨hpath, hlo, hhi⟩
          simp only at hpath hlo hhi
          by_cases hsplit : b < pending.offset + pending.length
          · exact Or.inl ⟨hpath, hlo, hsplit⟩
          · refine Or.inr ⟨f, List.mem_cons_self f rest, ?_, ?_, ?_⟩
            · rw [← hm.2.2]; exact hpath
            · omega
            · omega
        · exact Or.inr ⟨hu.choose, List.mem_cons_of_mem f hu.choose_spec.1, hu.choose_spec.2⟩
      · rw [if_neg hm] at h
        rcases h with ⟨r, hr, hc⟩
        rcases List.mem_cons.mp hr with hr0 | hr1
        · subst hr0; exact Or.inl hc
        · rcases ih f p b ⟨r, hr1, hc⟩ with hc' | hu'
          · exact Or.inr ⟨f, List.mem_cons_self f rest, hc'⟩
          · exact Or.inr ⟨hu'.choose, List.mem_cons_of_mem f hu'.choose_spec.1,
              hu'.choose_spec.2⟩

/-- C1 (counterexample).  On the PATH-sorted input
`(p,0,100), (p,50,10)` the coalescing loop merges the second request into
the first by setting the pending length to `50 + 10 - 0 = 60`, issuing
only `(p,0,60)`: byte 99, requested by the input, is never issued, and the
pending request was not extended to the max end 100 of the two.  So
coalescing is not lossless. -/
theorem readahead_coalesce_lossy :
    preload_readahead [⟨"p", 0, 100⟩, ⟨"p", 50, 10⟩] = [⟨"p", 0, 60⟩] ∧
    InUnion [⟨"p", 0, 100⟩, ⟨"p", 50, 10⟩] "p" 99 ∧
    ¬ InUnion (preload_readahead [⟨"p", 0, 100⟩, ⟨"p", 50, 10⟩]) "p" 99 := by
  refine ⟨rfl, ?_, ?_⟩ <;> decide

/-- C1 (amended).  Coalescing never issues a byte outside the input
union: for every path and byte, membership in the union of the issued
ranges implies membership in the union of the input ranges.  (Equality
can fail, because a merge sets the pending request to
`[prev.offset, req.offset + req.length]` — the end of the incoming
request — which may be smaller than the previous end.) -/
theorem readahead_coalesce_union_subset (files : List MapReq) (p : String) (b : Nat)
    (h : InUnion (preload_readahead files) p b) : InUnion files p b := by
  cases files with
  | nil => simpa [preload_readahead] using h
  | cons f rest =>
      rcases coalesceGo_union_subset rest f p b h with hc | hu
      · exact ⟨f, List.mem_cons_self f rest, hc⟩
      · exact ⟨hu.choose, List.mem_cons_of_mem f hu.choose_spec.1, hu.choose_spec.2⟩

/-- Witness for `readahead_coalesce_union_subset` at a concrete input. -/
theorem readahead_coalesce_union_subset_witness :
    InUnion [(⟨"q", 10, 20⟩ : MapReq)] "q" 15 :=
  readahead_coalesce_union_subset [⟨"q", 10, 20⟩] "q" 15 (by decide)

/-! ## Markov pair model (src/algorithm/markov.c)

An edge only reads these pieces of the global state and of its two
endpoint exes, so they are the embedding's inputs. -/

structure MarkovEnv where
  time : Int
  last_running_timestamp : Int
deriving DecidableEq, Repr

structure MExe where
  time : Int
  running_timestamp : Int
  change_timestamp : Int
deriving DecidableEq, Repr

/-- `exe_is_running` (exe.c:32-38). -/
def exe_is_running (env : MarkovEnv) (e : MExe) : Bool :=
  env.last_running_timestamp ≤ e.running_timestamp

/-- A markov edge's own mutable fields (markov.h).  `time_to_leave` and
`weight` are 4- and 4×4-element C arrays, embedded as functions (indices
≥ 4 are never touched). -/
structure Markov where
  time : Int
  time_to_leave : Nat → ℚ
  weight : Nat → Nat → Int
  state : Nat
  change_timestamp : Int

/-- `markov_compute_state` (markov.c:35-39), fed with the two endpoints'
running bits. -/
def markov_compute_state (ra rb : Bool) : Nat :=
  (if ra then 1 else 0) + (if rb then 2 else 0)

/-- Pointwise update of a weight matrix (the C code mutates one cell). -/
def wupd (w : Nat → Nat → Int) (i j : Nat) (v : Int) : Nat → Nat → Int :=
  fun i' j' => if i' = i ∧ j' = j then v else w i' j'

/-- `preload_markov_state_changed` (markov.c:81-102).  `time` is the
global `state->time`; `ra`/`rb` are the endpoints' current running bits
(so "same tick" means: same `time`, `ra`, `rb`).  The branch where the
recomputed state equals the stored one is the `g_return_if_fail`
double-notification guard, which logs and leaves the edge untouched. -/
def preload_markov_state_changed (time : Int) (ra rb : Bool) (m : Markov) : Markov :=
  if m.change_timestamp = time then m
  else
    let old := m.state
    let new := markov_compute_state ra rb
    if old = new then m
    else
      let w1 := wupd m.weight old old (m.weight old old + 1)
      let ttl1 : Nat → ℚ := fun s =>
        if s = old then
          m.time_to_leave old
            + (((time - m.change_timestamp : Int) : ℚ) - m.time_to_leave old)
              / ((w1 old old : Int) : ℚ)
        else m.time_to_leave s
      let w2 := wupd w1 old new (w1 old new + 1)
      { m with weight := w2, time_to_leave := ttl1, state := new, change_timestamp := time }

/-- The seeded `change_timestamp` of `preload_markov_new` with
`initialize=true` (markov.c:58-63), as a function of the global time and
the endpoints' change timestamps. -/
def markov_new_change_timestamp (time aCt bCt : Int) : Int :=
  if 0 < aCt ∧ 0 < bCt then
    let c1 := if aCt < time then aCt else time
    if bCt < time ∧ c1 < bCt then bCt else c1
  else time

/-- The seeded `state` of `preload_markov_new` with `initialize=true`
(markov.c:56, 64-67): the computed state `s0`, with the bit of an
endpoint XORed out when its change timestamp strictly exceeds the seeded
edge timestamp. -/
def markov_new_state (time aCt bCt : Int) (s0 : Nat) : Nat :=
  if 0 < aCt ∧ 0 < bCt then
    let ct := markov_new_change_timestamp time aCt bCt
    Nat.xor (Nat.xor s0 (if ct < aCt then 1 else 0)) (if ct < bCt then 2 else 0)
  else s0

/-- `preload_markov_new` with `initialize=true` (markov.c:42-78): seed
state and change timestamp, zero `time`, `time_to_leave` and `weight`,
then call `preload_markov_state_changed` once. -/
def preload_markov_new (env : MarkovEnv) (a b : MExe) : Markov :=
  let ra := exe_is_running env a
  let rb := exe_is_running env b
  let s0 := markov_compute_state ra rb
  preload_markov_state_changed env.time ra rb
    { time := 0
      time_to_leave := fun _ => 0
      weight := fun _ _ => 0
      state := markov_new_state env.time a.change_timestamp b.change_timestamp s0
      change_timestamp := markov_new_change_timestamp env.time a.change_timestamp b.change_timestamp }

/-- Modelled from the spec (for comparison with the code): the edge
timestamp rule as the claim words it — "when both endpoints carry
change_timestamp > 0, use the later of the two endpoint timestamps that
precede the current time". -/
def claimSeedTimestamp (time aCt bCt : Int) : Int :=
  if 0 < aCt ∧ 0 < bCt then
    match [aCt, bCt].filter (fun x => decide (x < time)) with
    | [] => time
    | x :: xs => xs.foldl max x
  else time

/-- C5 (counterexample).  At global time 100 with both exes running,
`a.change_timestamp = 100` and `b.change_timestamp = 80`: the claim's
rule ("the later of the two endpoint timestamps that precede the current
time") picks 80, but the code keeps the global time 100, because the
`b` branch (markov.c:62) only accepts `b`'s timestamp when it exceeds
the value chosen so far, which is already `time` when `a`'s timestamp
does not precede `time`. -/
theorem markov_new_timestamp_counterexample :
    (preload_markov_new ⟨100, 90⟩ ⟨0, 90, 100⟩ ⟨0, 90, 80⟩).change_timestamp = 100 ∧
    claimSeedTimestamp 100 100 80 = 80 ∧
    (100 : Int) ≠ 80 := by
  refine ⟨rfl, rfl, by decide⟩

/-- C5 (amended).  With both endpoint timestamps positive, the seeded
edge timestamp is: the later of the two endpoint timestamps that precede
the current time when `a`'s timestamp precedes it, but the global time
when `a`'s does not (even if `b`'s precedes it); the seeded state XORs
out of the computed state the bit of each endpoint whose change
timestamp strictly exceeds the chosen edge timestamp.  In particular,
for two running exes registered at `time=100` with change timestamps 40
and 80, the new edge ends with `state=3`, `change_timestamp=80`, and
`time_to_leave` and `weight` all zero. -/
theorem markov_new_seed_spec :
    (∀ time aCt bCt : Int, 0 < aCt → 0 < bCt →
      markov_new_change_timestamp time aCt bCt =
        if aCt < time then (if bCt < time then max aCt bCt else aCt) else time) ∧
    (∀ time aCt bCt : Int, ∀ s0 : Nat, 0 < aCt → 0 < bCt →
      markov_new_state time aCt bCt s0 =
        Nat.xor (Nat.xor s0
            (if markov_new_change_timestamp time aCt bCt < aCt then 1 else 0))
          (if markov_new_change_timestamp time aCt bCt < bCt then 2 else 0)) ∧
    ((preload_markov_new ⟨100, 90⟩ ⟨0, 90, 40⟩ ⟨0, 90, 80⟩).state = 3 ∧
      (preload_markov_new ⟨100, 90⟩ ⟨0, 90, 40⟩ ⟨0, 90, 80⟩).change_timestamp = 80 ∧
      (∀ i, i < 4 → (preload_markov_new ⟨100, 90⟩ ⟨0, 90, 40⟩ ⟨0, 90, 80⟩).time_to_leave i = 0) ∧
      (∀ i j, i < 4 → j < 4 →
        (preload_markov_new ⟨100, 90⟩ ⟨0, 90, 40⟩ ⟨0, 90, 80⟩).weight i j = 0)) := by
  refine ⟨?_, ?_, ?_, ?_, ?_, ?_⟩
  · intro time aCt bCt ha hb
    simp only [markov_new_change_timestamp, if_pos (And.intro ha hb)]
    rcases lt_or_le aCt time with h1 | h1 <;> rcases lt_or_le bCt time with h2 | h2 <;>
      simp [h1, h2, not_lt.mpr, max_def] <;> omega
  · intro time aCt bCt s0 ha hb
    simp [markov_new_state, if_pos (And.intro ha hb)]
  · rfl
  · rfl
  · intro i _; rfl
  · intro i j _ _; rfl

/-- Witness for `markov_new_seed_spec` at concrete inputs. -/
theorem markov_new_seed_spec_witness :
    markov_new_change_timestamp 100 40 80 =
      (if (40 : Int) < 100 then (if (80 : Int) < 100 then max 40 80 else 40) else 100) :=
  markov_new_seed_spec.1 100 40 80 (by decide) (by decide)

/-- C9.  Calling `preload_markov_state_changed` twice in the same tick
(same `state->time` and same endpoint running bits) produces exactly the
edge a single call produces: a transition stamps
`change_timestamp = time`, so the re-entry is caught by the guard at
markov.c:86-87, and the no-op branches (already stamped, or recomputed
state unchanged) leave the edge unchanged in the first place. -/
theorem markov_state_changed_idempotent (time : Int) (ra rb : Bool) (m : Markov) :
    preload_markov_state_changed time ra rb (preload_markov_state_changed time ra rb m) =
      preload_markov_state_changed time ra rb m := by
  unfold preload_markov_state_changed
  by_cases h1 : m.change_timestamp = time
  · simp [h1]
  · by_cases h2 : m.state = markov_compute_state ra rb
    · simp [h1, h2]
    · simp [h1, h2]

/-- One observation tick fed to an edge: the global time at which
`preload_markov_state_changed` is invoked, and the endpoints' running
bits at that moment. -/
structure Tick where
  time : Int
  runA : Bool
  runB : Bool

/-- A finite sequence of `preload_markov_state_changed` calls. -/
def applyTicks (m : Markov) (ticks : List Tick) : Markov :=
  ticks.foldl (fun acc t => preload_markov_state_changed t.time t.runA t.runB acc) m

/-- `Σ_{j≠i} weight[i][j]` over the four states. -/
def offDiagSum (w : Nat → Nat → Int) (i : Nat) : Int :=
  (((List.range 4).filter (fun j => j ≠ i)).map (w i)).sum

/-- The row-balance invariant of markov.h: `weight[i][i]` is the number
of times state `i` was left, i.e. the sum of the off-diagonal entries of
row `i`. -/
def WeightBalanced (m : Markov) : Prop :=
  ∀ i, i < 4 → m.weight i i = offDiagSum m.weight i

lemma wupd_transition_balanced (w : Nat → Nat → Int) (old new : Nat)
    (hne : ¬ old = new) (hnew : new < 4)
    (h : ∀ i, i < 4 → w i i = offDiagSum w i) :
    ∀ i, i < 4 →
      (wupd (wupd w old old (w old old + 1)) old new
        ((wupd w old old (w old old + 1)) old new + 1)) i i =
      offDiagSum (wupd (wupd w old old (w old old + 1)) old new
        ((wupd w old old (w old old + 1)) old new + 1)) i := by
  intro i hi
  by_cases hio : i = old
  · subst hio
    have hbase := h i hi
    -- row `i = old`: the diagonal and the `new` column each gain 1.
    interval_cases i <;> interval_cases new <;>
      simp_all [offDiagSum, wupd, List.range_succ] <;> omega
  · -- rows other than `old` are untouched.
    have hbase := h i hi
    have hrow : ∀ j, (wupd (wupd w old old (w old old + 1)) old new
        ((wupd w old old (w old old + 1)) old new + 1)) i j = w i j := by
      intro j
      simp [wupd, hio]
    have hsum : offDiagSum (wupd (wupd w old old (w old old + 1)) old new
        ((wupd w old old (w old old + 1)) old new + 1)) i = offDiagSum w i := by
      unfold offDiagSum
      congr 1
      exact List.map_congr_left (fun j _ => hrow j)
    rw [hrow i, hsum]
    exact hbase

lemma markov_state_changed_balanced (time : Int) (ra rb : Bool) (m : Markov)
    (h : WeightBalanced m) :
    WeightBalanced (preload_markov_state_changed time ra rb m) := by
  unfold preload_markov_state_changed
  by_cases h1 : m.change_timestamp = time
  · simpa [h1] using h
  · by_cases h2 : m.state = markov_compute_state ra rb
    · simpa [h1, h2] using h
    · simp only [h1, h2, if_false]
      exact fun i hi =>
        wupd_transition_balanced m.weight m.state (markov_compute_state ra rb) h2
          (by cases ra <;> cases rb <;> simp [markov_compute_state]) h i hi

lemma applyTicks_balanced (ticks : List Tick) :
    ∀ m : Markov, WeightBalanced m → WeightBalanced (applyTicks m ticks) := by
  induction ticks with
  | nil => intro m h; exact h
  | cons t ts ih =>
      intro m h
      exact ih _ (markov_state_changed_balanced t.time t.runA t.runB m h)

/-- C8.  Starting from an edge whose weights are all zero (as
`preload_markov_new` initializes them), after any finite sequence of
`preload_markov_state_changed` calls the diagonal entry `weight[i][i]`
equals the sum of the off-diagonal entries of row `i`, for every state
`i` in {0,1,2,3}.  (The single `state_changed` call made at the end of
`preload_markov_new` itself is the first element of the tick list.) -/
theorem markov_weight_invariant (m : Markov) (ticks : List Tick)
    (h : m.weight = fun _ _ => 0) :
    WeightBalanced (applyTicks m ticks) := by
  apply applyTicks_balanced
  intro i _
  simp [h, offDiagSum]

/-- Witness for `markov_weight_invariant`: a fresh edge pushed through
three ticks. -/
theorem markov_weight_invariant_witness :
    WeightBalanced (applyTicks
      ⟨0, fun _ => 0, fun _ _ => 0, 0, 0⟩
      [⟨5, true, false⟩, ⟨9, true, true⟩, ⟨12, false, true⟩]) :=
  markov_weight_invariant ⟨0, fun _ => 0, fun _ _ => 0, 0, 0⟩
    [⟨5, true, false⟩, ⟨9, true, true⟩, ⟨12, false, true⟩] rfl

/-- `preload_markov_correlation` (markov.c:158-179), as a function of
`t = state->time`, `a = markov->a->time`, `b = markov->b->time`,
`ab = markov->time` (all C `int`s); the `double` computation is embedded
in `ℝ`. -/
noncomputable def preload_markov_correlation (t a b ab : Int) : ℝ :=
  if a = 0 ∨ a = t ∨ b = 0 ∨ b = t then 0
  else ((t : ℝ) * (ab : ℝ) - (a : ℝ) * (b : ℝ)) /
    Real.sqrt (((a : ℝ) * (b : ℝ)) * (((t : ℝ) - (a : ℝ)) * ((t : ℝ) - (b : ℝ))))

/-- C6.  The correlation returns 0 whenever `a = 0`, `a = t`, `b = 0` or
`b = t` — in particular at `t = a = b = ab = 1000` it returns 0, not 1 —
and in every other case returns `(t·ab − a·b) / sqrt((a·b)·(t−a)·(t−b))`. -/
theorem markov_correlation_spec :
    (∀ t a b ab : Int, (a = 0 ∨ a = t ∨ b = 0 ∨ b = t) →
      preload_markov_correlation t a b ab = 0) ∧
    preload_markov_correlation 1000 1000 1000 1000 = 0 ∧
    (∀ t a b ab : Int, ¬ (a = 0 ∨ a = t ∨ b = 0 ∨ b = t) →
      preload_markov_correlation t a b ab =
        ((t : ℝ) * (ab : ℝ) - (a : ℝ) * (b : ℝ)) /
          Real.sqrt (((a : ℝ) * (b : ℝ)) * (((t : ℝ) - (a : ℝ)) * ((t : ℝ) - (b : ℝ))))) := by
  refine ⟨?_, ?_, ?_⟩
  · intro t a b ab h
    simp [preload_markov_correlation, h]
  · simp [preload_markov_correlation]
  · intro t a b ab h
    simp [preload_markov_correlation, h]

/-- Witness for `markov_correlation_spec` at a concrete guarded input. -/
theorem markov_correlation_spec_witness :
    preload_markov_correlation 5 0 3 2 = 0 :=
  markov_correlation_spec.1 5 0 3 2 (Or.inl rfl)

/-! C7: the `g_assert (fabs (correlation) <= 1.00001)` in markov.c:177.

The model's accounting (spy.c:187-205) applies one common `period` per
update tick: `state->time` advances by it, every running exe's `time`
gains it, and every edge in state 3 gains it.  By that point the edge's
state has been synchronised with the endpoints' running bits (every flip
of a running bit queues the exe on `state_changed_exes`, whose callback
notifies every incident edge before the accounting runs), so an edge
accrues exactly when both endpoints accrue.  An edge is born
(spy.c:114-116 via `preload_state_register_exe`) with `markov->time = 0`
and its `b` endpoint a brand-new exe with `time = 0`. -/

structure AcctStep where
  period : Nat
  runA : Bool
  runB : Bool

/-- The four counters the correlation reads. -/
structure Acct where
  t : Int
  a : Int
  b : Int
  ab : Int
deriving DecidableEq, Repr

/-- One accounting pass of `preload_spy_update_model` as it affects one
edge and its endpoints. -/
def acctStep (s : Acct) (st : AcctStep) : Acct :=
  { t := s.t + (st.period : Int)
    a := s.a + (if st.runA then (st.period : Int) else 0)
    b := s.b + (if st.runB then (st.period : Int) else 0)
    ab := s.ab + (if st.runA ∧ st.runB then (st.period : Int) else 0) }

def acctRun (s : Acct) (steps : List AcctStep) : Acct := steps.foldl acctStep s

/-- Counter constraints that accounting maintains. -/
def AcctInv (s : Acct) : Prop :=
  0 ≤ s.ab ∧ s.ab ≤ s.a ∧ s.ab ≤ s.b ∧ s.a ≤ s.t ∧ s.b ≤ s.t ∧ s.a + s.b - s.t ≤ s.ab

lemma acctStep_inv (s : Acct) (st : AcctStep) (h : AcctInv s) : AcctInv (acctStep s st) := by
  obtain ⟨h1, h2, h3, h4, h5, h6⟩ := h
  cases st with
  | mk p ra rb =>
      cases ra <;> cases rb <;>
        simp only [AcctInv, acctStep, if_true, if_false, and_true, true_and,
          and_false, false_and, if_neg, if_pos] <;>
        constructor <;> simp_all <;> omega

lemma acctRun_inv (steps : List AcctStep) :
    ∀ s : Acct, AcctInv s → AcctInv (acctRun s steps) := by
  induction steps with
  | nil => intro s h; exact h
  | cons st rest ih => intro s h; exact ih _ (acctStep_inv s st h)

/-- A four-variable inequality: with `u = P·Q`, `v = R·S`,
`x = P·S + R·Q`, `y = P·R + Q·S`, the difference of the two sides is
`4uv + (u+v)(x+y) + xy ≥ 0`. -/
lemma four_gap_inequality (P Q R S : Int)
    (hP : 0 ≤ P) (hQ : 0 ≤ Q) (hR : 0 ≤ R) (hS : 0 ≤ S) :
    (P * Q - R * S) ^ 2 ≤ (P + R) * (P + S) * ((Q + S) * (Q + R)) := by
  nlinarith [mul_nonneg (mul_nonneg hP hQ) (mul_nonneg hR hS),
    mul_nonneg (add_nonneg (mul_nonneg hP hQ) (mul_nonneg hR hS))
      (add_nonneg (add_nonneg (mul_nonneg hP hS) (mul_nonneg hR hQ))
        (add_nonneg (mul_nonneg hP hR) (mul_nonneg hQ hS))),
    mul_nonneg (add_nonneg (mul_nonneg hP hS) (mul_nonneg hR hQ))
      (add_nonneg (mul_nonneg hP hR) (mul_nonneg hQ hS))]

/-- The algebraic heart: under the counter constraints the squared
numerator is dominated by the squared denominator.  Instantiates
`four_gap_inequality` at the four gaps `ab`, `t−a−b+ab`, `a−ab`,
`b−ab`. -/
lemma correlation_num_sq_le (t a b ab : Int)
    (h1 : 0 ≤ ab) (h2 : ab ≤ a) (h3 : ab ≤ b) (h4 : a ≤ t) (h5 : b ≤ t)
    (h6 : a + b - t ≤ ab) :
    (t * ab - a * b) ^ 2 ≤ (a * b) * ((t - a) * (t - b)) := by
  have hP : 0 ≤ ab := h1
  have hQ : 0 ≤ t - a - b + ab := by omega
  have hR : 0 ≤ a - ab := by omega
  have hS : 0 ≤ b - ab := by omega
  have key := four_gap_inequality ab (t - a - b + ab) (a - ab) (b - ab) hP hQ hR hS
  nlinarith [key]

lemma correlation_abs_le_one (t a b ab : Int)
    (h1 : 0 ≤ ab) (h2 : ab ≤ a) (h3 : ab ≤ b) (h4 : a ≤ t) (h5 : b ≤ t)
    (h6 : a + b - t ≤ ab) :
    |preload_markov_correlation t a b ab| ≤ 1 := by
  by_cases hg : a = 0 ∨ a = t ∨ b = 0 ∨ b = t
  · simp [preload_markov_correlation, hg]
  · push_neg at hg
    obtain ⟨ha0, hat, hb0, hbt⟩ := hg
    have haPos : 0 < a := lt_of_le_of_ne (le_trans h1 h2) (Ne.symm ha0)
    have hbPos : 0 < b := lt_of_le_of_ne (le_trans h1 h3) (Ne.symm hb0)
    have haLt : a < t := lt_of_le_of_ne h4 hat
    have hbLt : b < t := lt_of_le_of_ne h5 hbt
    have hdenZ : (0 : Int) < (a * b) * ((t - a) * (t - b)) := by
      apply mul_pos (mul_pos haPos hbPos)
      apply mul_pos <;> omega
    have hden : (0 : ℝ) < ((a : ℝ) * (b : ℝ)) * (((t : ℝ) - (a : ℝ)) * ((t : ℝ) - (b : ℝ))) := by
      exact_mod_cast hdenZ
    have hsq := correlation_num_sq_le t a b ab h1 h2 h3 h4 h5 h6
    have hsqR : ((t : ℝ) * (ab : ℝ) - (a : ℝ) * (b : ℝ)) ^ 2 ≤
        ((a : ℝ) * (b : ℝ)) * (((t : ℝ) - (a : ℝ)) * ((t : ℝ) - (b : ℝ))) := by
      exact_mod_cast hsq
    have hnum : |(t : ℝ) * (ab : ℝ) - (a : ℝ) * (b : ℝ)| ≤
        Real.sqrt (((a : ℝ) * (b : ℝ)) * (((t : ℝ) - (a : ℝ)) * ((t : ℝ) - (b : ℝ)))) := by
      rw [← Real.sqrt_sq_eq_abs]
      exact Real.sqrt_le_sqrt hsqR
    have hsqrtPos : 0 < Real.sqrt (((a : ℝ) * (b : ℝ)) *
        (((t : ℝ) - (a : ℝ)) * ((t : ℝ) - (b : ℝ)))) := Real.sqrt_pos.mpr hden
    have : |preload_markov_correlation t a b ab| =
        |(t : ℝ) * (ab : ℝ) - (a : ℝ) * (b : ℝ)| /
          Real.sqrt (((a : ℝ) * (b : ℝ)) * (((t : ℝ) - (a : ℝ)) * ((t : ℝ) - (b : ℝ)))) := by
      rw [preload_markov_correlation, if_neg]
      · rw [abs_div, abs_of_pos hsqrtPos]
      · push_neg
        exact ⟨ha0, hat, hb0, hbt⟩
    rw [this, div_le_one hsqrtPos]
    exact hnum

/-- C7.  For every edge whose counters are reachable through the model's
accounting — born with `edge.time = 0` and a fresh `b` endpoint
(`b.time = 0`), the `a` endpoint's time not exceeding the global time,
then any finite sequence of accounting passes in which `state->time`,
the running endpoints' times, and (when both run) the edge time all
accrue the same period — the correlation lies within the asserted bound
`|ρ| ≤ 1.00001` (indeed within `[−1, 1]` exactly in real arithmetic, so
the tolerance only has to absorb floating-point rounding). -/
theorem markov_correlation_assert_holds (t0 a0 : Int) (steps : List AcctStep)
    (h0 : 0 ≤ a0) (h1 : a0 ≤ t0) :
    |preload_markov_correlation (acctRun ⟨t0, a0, 0, 0⟩ steps).t
        (acctRun ⟨t0, a0, 0, 0⟩ steps).a (acctRun ⟨t0, a0, 0, 0⟩ steps).b
        (acctRun ⟨t0, a0, 0, 0⟩ steps).ab| ≤ 1.00001 := by
  have hinv : AcctInv (acctRun ⟨t0, a0, 0, 0⟩ steps) := by
    apply acctRun_inv
    unfold AcctInv
    dsimp only
    omega
  obtain ⟨i1, i2, i3, i4, i5, i6⟩ := hinv
  have := correlation_abs_le_one _ _ _ _ i1 i2 i3 i4 i5 i6
  have hone : (1 : ℝ) ≤ 1.00001 := by norm_num
  exact le_trans this hone

/-- Witness for `markov_correlation_assert_holds` at a concrete trace. -/
theorem markov_correlation_assert_holds_witness :
    |preload_markov_correlation (acctRun ⟨10, 5, 0, 0⟩ [⟨3, true, true⟩, ⟨2, false, true⟩]).t
        (acctRun ⟨10, 5, 0, 0⟩ [⟨3, true, true⟩, ⟨2, false, true⟩]).a
        (acctRun ⟨10, 5, 0, 0⟩ [⟨3, true, true⟩, ⟨2, false, true⟩]).b
        (acctRun ⟨10, 5, 0, 0⟩ [⟨3, true, true⟩, ⟨2, false, true⟩]).ab| ≤ 1.00001 :=
  markov_correlation_assert_holds 10 5 [⟨3, true, true⟩, ⟨2, false, true⟩]
    (by decide) (by decide)

/-! ## VOMM context tree (src/algorithm/vomm.c)

Nodes carry a visit count and a child table keyed by exe path (the
stored exe pointer and parent back-pointer only matter for prediction
and teardown, not for the update path modelled here).  The global
`vomm_system` is `root`, `current_context` (a pointer into the tree,
embedded as the key path from the root) and the bounded history. -/

inductive VNode where
  | node (count : Int) (children : List (String × VNode)) : VNode

def VNode.count : VNode → Int
  | .node c _ => c

def VNode.children : VNode → List (String × VNode)
  | .node _ cs => cs

/-- `g_hash_table_lookup` on a child table. -/
def lookupChild : List (String × VNode) → String → Option VNode
  | [], _ => none
  | (k', v) :: rest, k => if k' = k then some v else lookupChild rest k

/-- `g_hash_table_insert` on a child table (replaces an existing key,
appends a new one). -/
def setChild : List (String × VNode) → String → VNode → List (String × VNode)
  | [], k, v => [(k, v)]
  | (k', v') :: rest, k, v =>
      if k' = k then (k, v) :: rest else (k', v') :: setChild rest k v

/-- Apply `f` to the node at key path `path`, creating missing nodes
along the way as `vomm_node_new` does (count 0, no children). -/
def updateAt (n : VNode) : List String → (VNode → VNode) → VNode
  | [], f => f n
  | k :: ks, f =>
      let child := match lookupChild n.children k with
        | some ch => ch
        | none => .node 0 []
      .node n.count (setChild n.children k (updateAt child ks f))

/-- The node at key path `path`, when the whole path exists. -/
def getAt (n : VNode) : List String → Option VNode
  | [] => some n
  | k :: ks =>
      match lookupChild n.children k with
      | some ch => getAt ch ks
      | none => none

/-- `count` of the node at a key path. -/
def countAt (n : VNode) (path : List String) : Option Int :=
  (getAt n path).map VNode.count

structure VommSys where
  root : VNode
  ctx : List String
  history : List String

/-- `vomm_init` (vomm.c:60-68). -/
def vomm_init : VommSys := ⟨.node 0 [], [], []⟩

/-- `MAX_VOMM_DEPTH` (vomm.c:89). -/
def MAX_VOMM_DEPTH : Nat := 5

/-- `vomm_update` (vomm.c:91-154): append to the history and prune its
oldest entry beyond `MAX_VOMM_DEPTH`; walk one step from
`current_context`, creating the child if missing, increment its count
and advance the context; and when the history holds at least two
entries, bump the bigram `root → prev → exe` (creating missing nodes,
incrementing only the terminal). -/
def vomm_update (sys : VommSys) (exe : String) : VommSys :=
  let hist1 := sys.history ++ [exe]
  let hist := if hist1.length > MAX_VOMM_DEPTH then hist1.drop 1 else hist1
  let root1 := updateAt sys.root (sys.ctx ++ [exe])
    (fun n => .node (n.count + 1) n.children)
  let ctx1 := sys.ctx ++ [exe]
  let root2 :=
    if 2 ≤ hist.length then
      let prev := hist.getD (hist.length - 2) ""
      updateAt root1 [prev, exe] (fun n => .node (n.count + 1) n.children)
    else root1
  ⟨root2, ctx1, hist⟩

/-- C4 (counterexample).  After the five updates
`firefox, vim, firefox, vim, bash` from a fresh VOMM, the node
`root.children[firefox].children[vim]` has count 3, not 2 (the context
walk of the second update and the bigram bumps of the second and fourth
updates all hit it), and the current context is the depth-5 node
`root→firefox→vim→firefox→vim→bash`, not the depth-3
`root→firefox→vim→bash`: `MAX_VOMM_DEPTH` bounds only the history
queue, never the context depth. -/
theorem vomm_scenario_counterexample :
    countAt (List.foldl vomm_update vomm_init
        ["firefox", "vim", "firefox", "vim", "bash"]).root ["firefox", "vim"] = some 3 ∧
    (List.foldl vomm_update vomm_init
        ["firefox", "vim", "firefox", "vim", "bash"]).ctx =
      ["firefox", "vim", "firefox", "vim", "bash"] ∧
    ¬ (countAt (List.foldl vomm_update vomm_init
          ["firefox", "vim", "firefox", "vim", "bash"]).root ["firefox", "vim"] = some 2 ∧
        (List.foldl vomm_update vomm_init
          ["firefox", "vim", "firefox", "vim", "bash"]).ctx =
          ["firefox", "vim", "bash"]) := by
  refine ⟨by decide, by decide, by decide⟩

/-- C4 (amended).  Starting from a freshly initialized VOMM, after the
five updates `firefox, vim, firefox, vim, bash` (no intervening
predictions): `root.children[firefox].children[vim]` has count 3, the
current context is the depth-5 path
`root→firefox→vim→firefox→vim→bash` (the context walk is not bounded by
`MAX_VOMM_DEPTH`), and the history queue is
`[firefox, vim, firefox, vim, bash]`, exactly `MAX_VOMM_DEPTH` long. -/
theorem vomm_scenario :
    countAt (List.foldl vomm_update vomm_init
        ["firefox", "vim", "firefox", "vim", "bash"]).root ["firefox", "vim"] = some 3 ∧
    (List.foldl vomm_update vomm_init
        ["firefox", "vim", "firefox", "vim", "bash"]).ctx =
      ["firefox", "vim", "firefox", "vim", "bash"] ∧
    (List.foldl vomm_update vomm_init
        ["firefox", "vim", "firefox", "vim", "bash"]).history =
      ["firefox", "vim", "firefox", "vim", "bash"] := by
  refine ⟨by decide, by decide, by decide⟩

/-! ## State persistence (src/handling/state_io.c, state.c) and
model cleanup (src/core/model_utils.c)

The state file is line-oriented; lines parse into the records below, so
the embedding works at the record level (numeric formatting and
`file://` path encoding are taken as faithful inverses; `sscanf`
failures surface here as structurally malformed records, e.g. a MARKOV
record with fewer than 4 dwell times or 16 weights).  `double` fields
are carried as `ℚ`. -/

structure SMap where
  path : String
  offset : Nat
  length : Nat
  update_time : Int
  seq : Int
  refcount : Nat
deriving DecidableEq, Repr

structure SExemap where
  mapSeq : Int
  prob : ℚ
deriving DecidableEq, Repr

structure SExe where
  path : String
  seq : Int
  time : Int
  update_time : Int
  change_timestamp : Int
  running_timestamp : Int
  exemaps : List SExemap
deriving DecidableEq, Repr

/-- A markov edge as the persistence layer sees it: endpoints are
identified by their (unique) paths; `ttl` has 4 entries and `weight` 16
(row-major).  `state` and `change_timestamp` are left uninitialized by
`preload_markov_new(a, b, FALSE)` in the C; the embedding uses 0 for
that junk, and `read_state` recomputes `state` after a successful
load. -/
structure SMarkov where
  aPath : String
  bPath : String
  time : Int
  ttl : List ℚ
  weight : List Int
  state : Nat
  change_timestamp : Int
deriving DecidableEq, Repr

/-- The fields of the `preload_state_t` singleton that the persistence
and cleanup paths touch.  `exes` and `maps` keep the container iteration
order (`maps` doubles for `maps_arr`). -/
structure IoState where
  time : Int
  exes : List SExe
  maps : List SMap
  markovs : List SMarkov
  bad_exes : List (String × Int)
  map_seq : Int
  exe_seq : Int
  last_accounting_timestamp : Int
  last_running_timestamp : Int
  dirty : Bool
deriving DecidableEq, Repr

/-- One parsed line of the state file. -/
inductive Record where
  | preloadHdr (major : Nat) (time : Int)
  | mapRec (seq : Int) (update_time : Int) (offset : Nat) (length : Nat) (path : String)
  | badexeRec (size : Int) (path : String)
  | exeRec (seq : Int) (update_time : Int) (time : Int) (path : String)
  | exemapRec (exeSeq : Int) (mapSeq : Int) (prob : ℚ)
  | markovRec (aSeq : Int) (bSeq : Int) (time : Int) (ttl : List ℚ) (weight : List Int)
deriving DecidableEq, Repr

/-- Major component of the build's VERSION string.  The build system is
outside the covered sources; only its comparison against the header's
major version matters, so the concrete value is irrelevant. -/
def VERSION_MAJOR : Nat := 1

def READ_SYNTAX_ERROR : String := "invalid syntax"
def READ_INDEX_ERROR : String := "invalid index"
def READ_DUPLICATE_INDEX_ERROR : String := "duplicate index"
def READ_DUPLICATE_OBJECT_ERROR : String := "duplicate object"

/-- The load-time translation tables (`rc->maps`, `rc->exes`): in-file
identity → assigned map seq, and in-file identity → exe path (the
embedding's stand-in for the exe pointer). -/
structure ReadCtx where
  rcMaps : List (Int × Int)
  rcExes : List (Int × String)
deriving DecidableEq, Repr

def findExe (st : IoState) (p : String) : Option SExe :=
  st.exes.find? (fun e => e.path = p)

def findMapBySeq (st : IoState) (s : Int) : Option SMap :=
  st.maps.find? (fun m => m.seq = s)

def hasMapTriple (st : IoState) (p : String) (off len : Nat) : Bool :=
  st.maps.any (fun m => m.path = p && m.offset = off && m.length = len)

def updateExe (st : IoState) (p : String) (f : SExe → SExe) : IoState :=
  { st with exes := st.exes.map (fun e => if e.path = p then f e else e) }

/-- `preload_map_ref` on an already-registered map. -/
def bumpMapRef (st : IoState) (s : Int) : IoState :=
  { st with maps := st.maps.map (fun m =>
      if m.seq = s then { m with refcount := m.refcount + 1 } else m) }

/-- `preload_map_unref`: decrement the refcount; at zero the map is
unregistered and freed. -/
def unrefMapSeq (st : IoState) (s : Int) : IoState :=
  { st with maps := st.maps.filterMap (fun m =>
      if m.seq = s then
        (if m.refcount = 1 then none else some { m with refcount := m.refcount - 1 })
      else some m) }

/-- `read_map` (state_io.c:65-107): duplicate-index and
duplicate-object checks, then register the map with a fresh seq and
refcount 1 and record the identity translation. -/
def read_map (rc : ReadCtx) (st : IoState) (i ut : Int) (off len : Nat) (p : String) :
    Option String × ReadCtx × IoState :=
  if (rc.rcMaps.lookup i).isSome then (some READ_DUPLICATE_INDEX_ERROR, rc, st)
  else if hasMapTriple st p off len then (some READ_DUPLICATE_OBJECT_ERROR, rc, st)
  else
    (none,
      { rc with rcMaps := rc.rcMaps ++ [(i, st.map_seq + 1)] },
      { st with maps := st.maps ++ [⟨p, off, len, ut, st.map_seq + 1, 1⟩],
                map_seq := st.map_seq + 1 })

/-- `read_exe` (state_io.c:136-183): duplicate checks, then build the
exe (`running=FALSE`, so `running_timestamp = -1`; `change_timestamp`
forced to `-1`) and register it with a fresh seq. -/
def read_exe (rc : ReadCtx) (st : IoState) (i ut tm : Int) (p : String) :
    Option String × ReadCtx × IoState :=
  if (rc.rcExes.lookup i).isSome then (some READ_DUPLICATE_INDEX_ERROR, rc, st)
  else if (findExe st p).isSome then (some READ_DUPLICATE_OBJECT_ERROR, rc, st)
  else
    (none,
      { rc with rcExes := rc.rcExes ++ [(i, p)] },
      { st with exes := st.exes ++ [⟨p, st.exe_seq + 1, tm, ut, -1, -1, []⟩],
                exe_seq := st.exe_seq + 1 })

/-- `read_exemap` (state_io.c:186-211): resolve both identities, append
the exemap to the exe (taking a reference on the map). -/
def read_exemap (rc : ReadCtx) (st : IoState) (iexe imap : Int) (prob : ℚ) :
    Option String × ReadCtx × IoState :=
  match rc.rcExes.lookup iexe, rc.rcMaps.lookup imap with
  | some p, some ms =>
      (none, rc,
        bumpMapRef (updateExe st p (fun e => { e with exemaps := e.exemaps ++ [⟨ms, prob⟩] })) ms)
  | _, _ => (some READ_INDEX_ERROR, rc, st)

/-- `read_markov` (state_io.c:214-269): resolve both endpoints, then
the 4 dwell times and 16 weights; fewer numeric fields is a syntax
error.  (On that error the C leaves a partially-filled edge linked; no
modelled claim observes an errored markov record's partial fill.) -/
def read_markov (rc : ReadCtx) (st : IoState) (ia ib tm : Int)
    (ttl : List ℚ) (w : List Int) : Option String × ReadCtx × IoState :=
  match rc.rcExes.lookup ia, rc.rcExes.lookup ib with
  | some pa, some pb =>
      if ttl.length < 4 ∨ w.length < 16 then (some READ_SYNTAX_ERROR, rc, st)
      else
        (none, rc,
          { st with markovs := st.markovs ++ [⟨pa, pb, tm, ttl.take 4, w.take 16, 0, 0⟩] })
  | _, _ => (some READ_INDEX_ERROR, rc, st)

/-- The record loop of `read_state` (state_io.c:300-359).  `lineno`
counts the records already consumed.  An invalid first record and a
major-version skew end the loop with a warning but no error; record
errors end it with the offending line number. -/
def readLoop (rc : ReadCtx) (st : IoState) (lineno : Nat) :
    List Record → Option (Nat × String) × ReadCtx × IoState
  | [] => (none, rc, st)
  | r :: rest =>
    match r with
    | .preloadHdr major tm =>
        if lineno + 1 ≠ 1 then (some (lineno + 1, READ_SYNTAX_ERROR), rc, st)
        else if VERSION_MAJOR < major then (none, rc, st)
        else if major < VERSION_MAJOR then (none, rc, st)
        else readLoop rc { st with time := tm, last_accounting_timestamp := tm } (lineno + 1) rest
    | .mapRec i ut off len p =>
        if lineno + 1 = 1 then (none, rc, st)
        else match read_map rc st i ut off len p with
          | (some msg, rc', st') => (some (lineno + 1, msg), rc', st')
          | (none, rc', st') => readLoop rc' st' (lineno + 1) rest
    | .badexeRec _ _ =>
        if lineno + 1 = 1 then (none, rc, st)
        else readLoop rc st (lineno + 1) rest
    | .exeRec i ut tm p =>
        if lineno + 1 = 1 then (none, rc, st)
        else match read_exe rc st i ut tm p with
          | (some msg, rc', st') => (some (lineno + 1, msg), rc', st')
          | (none, rc', st') => readLoop rc' st' (lineno + 1) rest
    | .exemapRec iexe imap prob =>
        if lineno + 1 = 1 then (none, rc, st)
        else match read_exemap rc st iexe imap prob with
          | (some msg, rc', st') => (some (lineno + 1, msg), rc', st')
          | (none, rc', st') => readLoop rc' st' (lineno + 1) rest
    | .markovRec ia ib tm ttl w =>
        if lineno + 1 = 1 then (none, rc, st)
        else match read_markov rc st ia ib tm ttl w with
          | (some msg, rc', st') => (some (lineno + 1, msg), rc', st')
          | (none, rc', st') => readLoop rc' st' (lineno + 1) rest

def exeRunningIn (st : IoState) (p : String) : Bool :=
  match findExe st p with
  | some e => decide (st.last_running_timestamp ≤ e.running_timestamp)
  | none => false

/-- `set_markov_state_callback` applied over all edges
(state_io.c:272-277, 374-376). -/
def markovRecomputeState (st : IoState) : IoState :=
  { st with markovs := st.markovs.map (fun mk =>
      { mk with state := markov_compute_state (exeRunningIn st mk.aPath) (exeRunningIn st mk.bPath) }) }

/-- `g_hash_table_destroy (rc.maps)`: each translated map loses the
reference `read_map` took (state_io.c:294, 363). -/
def destroyReadCtx (rc : ReadCtx) (st : IoState) : IoState :=
  rc.rcMaps.foldl (fun acc pr => unrefMapSeq acc pr.2) st

/-- The state `preload_state_load` zeroes out before reading. -/
def initState : IoState := ⟨0, [], [], [], [], 0, 0, 0, 0, false⟩

/-- `read_state` (state_io.c:280-379) on a fresh state: run the loop,
drop the translation table's map references, and on success recompute
every edge's state. -/
def read_state (records : List Record) : Option (Nat × String) × IoState :=
  match readLoop ⟨[], []⟩ initState 0 records with
  | (some e, rc, st) => (some e, destroyReadCtx rc st)
  | (none, rc, st) => (none, markovRecomputeState (destroyReadCtx rc st))

/-- What `preload_state_load` (state.c:64-89) does with a read error:
`g_error` is GLib's fatal log level — the handler cannot demote it and
the process aborts — so the outcome records that the daemon died.
`errLine`/`errMsg` reflect the `"line %d: %s"` message built at
state_io.c:368. -/
structure LoadResult where
  st : IoState
  fatal : Bool
  errLine : Option Nat
  errMsg : Option String
deriving DecidableEq, Repr

def preload_state_load (records : List Record) : LoadResult :=
  match read_state records with
  | (some (n, msg), st) =>
      ⟨st, true, some n, some ("line " ++ toString n ++ ": " ++ msg)⟩
  | (none, st) => ⟨st, false, none, none⟩

/-- `preload_markov_foreach` (markov.c:183-212): scan every exe's edge
list and emit an edge only from its `a` endpoint, so each edge is
emitted exactly once. -/
def markov_foreach_list (st : IoState) : List SMarkov :=
  st.exes.flatMap (fun e => st.markovs.filter (fun mk => mk.aPath = e.path))

def exeSeqOf (st : IoState) (p : String) : Int :=
  match findExe st p with
  | some e => e.seq
  | none => 0

/-- `write_state` (state_io.c:567-591): header, then all maps, bad
exes, exes, each exe's exemaps, and the markov edges via the canonical
`a`-endpoint iteration. -/
def write_state (st : IoState) : List Record :=
  [.preloadHdr VERSION_MAJOR st.time]
    ++ st.maps.map (fun m => .mapRec m.seq m.update_time m.offset m.length m.path)
    ++ st.bad_exes.map (fun be => .badexeRec be.2 be.1)
    ++ st.exes.map (fun e => .exeRec e.seq e.update_time e.time e.path)
    ++ st.exes.flatMap (fun e => e.exemaps.map (fun em => .exemapRec e.seq em.mapSeq em.prob))
    ++ (markov_foreach_list st).map (fun mk =>
        .markovRec (exeSeqOf st mk.aPath) (exeSeqOf st mk.bPath) mk.time mk.ttl mk.weight)

/-! Comparison views for the round-trip statement: the attributes the
file persists.  Seqs are re-assigned on load and an exemap points at its
map through the seq, so an exemap is compared through the referenced
map's persistent attributes. -/

def mapView (m : SMap) : String × Nat × Nat × Int :=
  (m.path, m.offset, m.length, m.update_time)

def exemapView (st : IoState) (em : SExemap) : Option (String × Nat × Nat × Int) × ℚ :=
  ((findMapBySeq st em.mapSeq).map mapView, em.prob)

def exeView (st : IoState) (e : SExe) :
    String × Int × Int × List (Option (String × Nat × Nat × Int) × ℚ) :=
  (e.path, e.time, e.update_time, e.exemaps.map (exemapView st))

def markovView (mk : SMarkov) : String × String × Int × List ℚ × List Int :=
  (mk.aPath, mk.bPath, mk.time, mk.ttl, mk.weight)

/-- The store invariants of a state handed to `write_state`: unique exe
paths and seqs, unique map triples and seqs, exemaps pointing at stored
maps, every stored map referenced by some exemap (`refcount > 0`), edges
joining two distinct stored exes, and full-size markov arrays. -/
def WfState (st : IoState) : Prop :=
  (st.exes.map (fun e => e.path)).Nodup ∧
  (st.exes.map (fun e => e.seq)).Nodup ∧
  (st.maps.map (fun m => (m.path, m.offset, m.length))).Nodup ∧
  (st.maps.map (fun m => m.seq)).Nodup ∧
  (∀ e ∈ st.exes, ∀ em ∈ e.exemaps, ∃ m ∈ st.maps, m.seq = em.mapSeq) ∧
  (∀ m ∈ st.maps, ∃ e ∈ st.exes, ∃ em ∈ e.exemaps, em.mapSeq = m.seq) ∧
  (∀ mk ∈ st.markovs, mk.aPath ∈ st.exes.map (fun e => e.path) ∧
      mk.bPath ∈ st.exes.map (fun e => e.path) ∧ mk.aPath ≠ mk.bPath) ∧
  (∀ mk ∈ st.markovs, mk.ttl.length = 4 ∧ mk.weight.length = 16)

/-! ### `preload_state_save` and the invalidation sweep -/

/-- `preload_validate_exe`'s verdict is driven by `stat`, an external
effect; it enters the embedding as an oracle `valid : String → Int`
with the C function's encoding: `-1` gone or not a regular file, `0`
still valid, `1` replaced (model_utils.c:15-52). -/
def check_exe_validity (st : IoState) (valid : String → Int) : List SExe :=
  st.exes.filter (fun e =>
    !(decide (st.last_running_timestamp ≤ e.running_timestamp)) && decide (valid e.path = -1))

/-- `remove_invalid_exe` (model_utils.c:127-146) +
`preload_state_unregister_exe` + `preload_exe_free`: drop the exe,
release its exemaps (unref their maps) and its incident edges. -/
def remove_exe (st : IoState) (p : String) : IoState :=
  match findExe st p with
  | none => st
  | some e =>
      let st1 := { st with
        exes := st.exes.filter (fun e' => !(decide (e'.path = p))),
        markovs := st.markovs.filter (fun mk =>
          !(decide (mk.aPath = p)) && !(decide (mk.bPath = p))) }
      e.exemaps.foldl (fun acc em => unrefMapSeq acc em.mapSeq) st1

/-- `preload_cleanup_invalid_entries` (model_utils.c:148-178): collect
the non-running exes whose file is gone, then unregister each. -/
def preload_cleanup_invalid_entries (st : IoState) (valid : String → Int) : IoState :=
  (check_exe_validity st valid).foldl (fun acc e => remove_exe acc e.path) st

/-- `preload_state_save` (state.c:99-117).  The write itself only
touches the filesystem; `statefileGiven` is whether a non-empty path was
passed and `writeOk` whether `preload_state_write_file` returned no
error (a failure is reported via non-fatal `g_critical`). -/
def preload_state_save (st : IoState) (statefileGiven writeOk : Bool)
    (valid : String → Int) : IoState :=
  let st1 :=
    if st.dirty && statefileGiven then
      (if writeOk then { st with dirty := false } else st)
    else st
  let st2 := preload_cleanup_invalid_entries st1 valid
  { st2 with bad_exes := [] }

/-- Any error reported by the record loop names a line strictly inside
the portion of the file it was given. -/
lemma readLoop_err_line_bound (records : List Record) :
    ∀ (rc : ReadCtx) (st : IoState) (lineno n : Nat) (msg : String),
      (readLoop rc st lineno records).1 = some (n, msg) →
      lineno < n ∧ n ≤ lineno + records.length := by
  induction records with
  | nil =>
      intro rc st lineno n msg h
      simp [readLoop] at h
  | cons r rest ih =>
      intro rc st lineno n msg h
      cases r <;> simp only [readLoop] at h <;>
        (try split at h) <;> (try split at h) <;> (try split at h) <;>
        first
        | (rcases ih _ _ _ _ _ h with ⟨h1, h2⟩
           simp only [List.length_cons]
           omega)
        | (simp at h
           obtain ⟨h1, h2⟩ := h
           simp only [List.length_cons]
           omega)
        | (simp at h)

/-- C2 (counterexample).  A state file whose third line re-uses exe
identity 7 makes the load die: `read_state` reports
`line 3: duplicate index`, and `preload_state_load` feeds that to
`g_error`, which is fatal — the daemon does not keep running — while
the exe read from line 2 is still registered, so the model is not
empty either. -/
theorem state_load_corrupt_counterexample :
    (preload_state_load [.preloadHdr VERSION_MAJOR 42,
        .exeRec 7 1 5 "/bin/a", .exeRec 7 1 6 "/bin/b"]).fatal = true ∧
    (preload_state_load [.preloadHdr VERSION_MAJOR 42,
        .exeRec 7 1 5 "/bin/a", .exeRec 7 1 6 "/bin/b"]).errLine = some 3 ∧
    (preload_state_load [.preloadHdr VERSION_MAJOR 42,
        .exeRec 7 1 5 "/bin/a", .exeRec 7 1 6 "/bin/b"]).st.exes ≠ [] ∧
    ¬ ((preload_state_load [.preloadHdr VERSION_MAJOR 42,
          .exeRec 7 1 5 "/bin/a", .exeRec 7 1 6 "/bin/b"]).fatal = false ∧
        (preload_state_load [.preloadHdr VERSION_MAJOR 42,
          .exeRec 7 1 5 "/bin/a", .exeRec 7 1 6 "/bin/b"]).st.exes = []) := by
  refine ⟨by decide, by decide, by decide, by decide⟩

/-- C2 (amended).  When the state file is corrupt the load does surface
a message carrying the offending line number (a line of the given
file), but the daemon does not continue running: `preload_state_load`
passes the failure to `g_error`, whose level is fatal, so the process
dies; and the records consumed before the offending line stay in the
model rather than being reset to an empty one.  A clean read is not
fatal. -/
theorem state_load_corrupt_amended :
    (∀ records : List Record, ∀ n : Nat, ∀ msg : String,
      (read_state records).1 = some (n, msg) →
      (preload_state_load records).fatal = true ∧
      (preload_state_load records).errLine = some n ∧
      (preload_state_load records).errMsg = some ("line " ++ toString n ++ ": " ++ msg) ∧
      (preload_state_load records).st = (read_state records).2 ∧
      1 ≤ n ∧ n ≤ records.length) ∧
    (∀ records : List Record, (read_state records).1 = none →
      (preload_state_load records).fatal = false) := by
  constructor
  · intro records n msg h
    have hb : 1 ≤ n ∧ n ≤ records.length := by
      rcases hrl : readLoop ⟨[], []⟩ initState 0 records with ⟨err0, rc0, st0⟩
      have h0 : err0 = some (n, msg) := by
        rw [read_state, hrl] at h
        cases err0 with
        | none => simp at h
        | some e => simpa using h
      have := readLoop_err_line_bound records ⟨[], []⟩ initState 0 n msg (by rw [hrl, h0])
      omega
    rcases hrs : read_state records with ⟨err, st2⟩
    rw [hrs] at h
    subst h
    refine ⟨?_, ?_, ?_, ?_, hb.1, hb.2⟩ <;> simp [preload_state_load, hrs]
  · intro records h
    rcases hrs : read_state records with ⟨err, st2⟩
    rw [hrs] at h
    subst h
    simp [preload_state_load, hrs]

/-- Witness for `state_load_corrupt_amended` at the concrete corrupt
file used above. -/
theorem state_load_corrupt_amended_witness :
    (preload_state_load [.preloadHdr VERSION_MAJOR 42,
        .exeRec 7 1 5 "/bin/a", .exeRec 7 1 6 "/bin/b"]).fatal = true ∧
    (preload_state_load [.preloadHdr VERSION_MAJOR 42,
        .exeRec 7 1 5 "/bin/a", .exeRec 7 1 6 "/bin/b"]).errLine = some 3 ∧
    (preload_state_load [.preloadHdr VERSION_MAJOR 42,
        .exeRec 7 1 5 "/bin/a", .exeRec 7 1 6 "/bin/b"]).errMsg =
      some ("line " ++ toString 3 ++ ": " ++ READ_DUPLICATE_INDEX_ERROR) ∧
    (preload_state_load [.preloadHdr VERSION_MAJOR 42,
        .exeRec 7 1 5 "/bin/a", .exeRec 7 1 6 "/bin/b"]).st =
      (read_state [.preloadHdr VERSION_MAJOR 42,
        .exeRec 7 1 5 "/bin/a", .exeRec 7 1 6 "/bin/b"]).2 ∧
    1 ≤ 3 ∧ 3 ≤ ([Record.preloadHdr VERSION_MAJOR 42,
        .exeRec 7 1 5 "/bin/a", .exeRec 7 1 6 "/bin/b"]).length :=
  state_load_corrupt_amended.1
    [.preloadHdr VERSION_MAJOR 42, .exeRec 7 1 5 "/bin/a", .exeRec 7 1 6 "/bin/b"]
    3 READ_DUPLICATE_INDEX_ERROR (by decide)

/-! ### C10: the save path always sweeps and always drains `bad_exes` -/

lemma unrefFold_shape (ems : List SExemap) :
    ∀ st : IoState,
      ems.foldl (fun acc em => unrefMapSeq acc em.mapSeq) st =
        { st with maps := (ems.foldl (fun acc em => unrefMapSeq acc em.mapSeq) st).maps } := by
  induction ems with
  | nil => intro st; rfl
  | cons em rest ih =>
      intro st
      rw [List.foldl_cons, ih (unrefMapSeq st em.mapSeq)]
      rfl

lemma remove_exe_shape (st : IoState) (p : String) :
    remove_exe st p =
      { st with
        exes := (remove_exe st p).exes,
        maps := (remove_exe st p).maps,
        markovs := (remove_exe st p).markovs } := by
  unfold remove_exe
  cases findExe st p with
  | none => rfl
  | some e =>
      simp only
      rw [unrefFold_shape]

lemma cleanup_shape (l : List SExe) :
    ∀ st : IoState,
      l.foldl (fun acc e => remove_exe acc e.path) st =
        { st with
          exes := (l.foldl (fun acc e => remove_exe acc e.path) st).exes,
          maps := (l.foldl (fun acc e => remove_exe acc e.path) st).maps,
          markovs := (l.foldl (fun acc e => remove_exe acc e.path) st).markovs } := by
  induction l with
  | nil => intro st; rfl
  | cons e rest ih =>
      intro st
      rw [List.foldl_cons, ih (remove_exe st e.path)]
      rw [remove_exe_shape st e.path]

/-- C10.  `preload_state_save` always runs the invalidation sweep and
always drains `bad_exes` — whatever the dirty flag, whether a state file
path was given, and whether the write succeeded — and the dirty flag is
cleared exactly when the state was dirty, a path was given, and the
write succeeded (a failed write leaves it set). -/
theorem state_save_always_sweeps (st : IoState) (given ok : Bool) (valid : String → Int) :
    preload_state_save st given ok valid =
      { preload_cleanup_invalid_entries
          { st with dirty := st.dirty && !(given && ok) } valid with bad_exes := [] } ∧
    (preload_state_save st given ok valid).bad_exes = [] ∧
    (preload_state_save st given ok valid).dirty = (st.dirty && !(given && ok)) := by
  have hmain : preload_state_save st given ok valid =
      { preload_cleanup_invalid_entries
          { st with dirty := st.dirty && !(given && ok) } valid with bad_exes := [] } := by
    rcases st with ⟨t, exes, maps, mks, bad, ms, es, lat, lrt, dirty⟩
    cases dirty <;> cases given <;> cases ok <;>
      simp [preload_state_save]
  refine ⟨hmain, ?_, ?_⟩
  · rw [hmain]
  · rw [hmain]
    unfold preload_cleanup_invalid_entries
    rw [cleanup_shape]

/-! ### C3: save/load round trip

`read_state (write_state st)` is computed phase by phase: the maps are
re-registered with fresh seqs `map_seq+1, map_seq+2, …`, the exes
likewise, the exemaps re-attach through the identity translation
tables, and the markov records re-link through the exe table. -/

/-- The maps as `read_map` re-registers them: fresh consecutive seqs,
refcount 1. -/
def renumberMaps (k : Int) : List SMap → List SMap
  | [] => []
  | m :: ms => ⟨m.path, m.offset, m.length, m.update_time, k + 1, 1⟩ :: renumberMaps (k + 1) ms

/-- The `rc->maps` translation built while reading those maps. -/
def mapIdxPairs (k : Int) : List SMap → List (Int × Int)
  | [] => []
  | m :: ms => (m.seq, k + 1) :: mapIdxPairs (k + 1) ms

/-- The exes as `read_exe` re-registers them: fresh seqs, no exemaps
yet, both timestamps −1. -/
def renumberExes (k : Int) : List SExe → List SExe
  | [] => []
  | e :: es => ⟨e.path, k + 1, e.time, e.update_time, -1, -1, []⟩ :: renumberExes (k + 1) es

/-- The `rc->exes` translation: in-file identity → exe (by path). -/
def exeIdxPairs : List SExe → List (Int × String)
  | [] => []
  | e :: es => (e.seq, e.path) :: exeIdxPairs es

/-- Translate an old map seq through `rc->maps`. -/
def remapSeq (prs : List (Int × Int)) (s : Int) : Int :=
  match prs.lookup s with
  | some ns => ns
  | none => 0

lemma lookup_eq_none_of_not_mem {α : Type} (l : List (Int × α)) (k : Int)
    (h : k ∉ l.map Prod.fst) : l.lookup k = none := by
  induction l with
  | nil => rfl
  | cons pr rest ih =>
      obtain ⟨k', v⟩ := pr
      simp only [List.map_cons, List.mem_cons, not_or] at h
      rw [List.lookup_cons]
      have : (k == k') = false := by
        simp only [beq_eq_false_iff_ne, ne_eq]
        exact fun hk => h.1 hk
      rw [this]
      exact ih h.2

lemma exeIdxPairs_lookup (es : List SExe) :
    ∀ e ∈ es, (es.map (fun x => x.seq)).Nodup →
      (exeIdxPairs es).lookup e.seq = some e.path := by
  induction es with
  | nil => intro e he; exact absurd he (List.not_mem_nil e)
  | cons e0 rest ih =>
      intro e he hnd
      simp only [List.map_cons, List.nodup_cons] at hnd
      rcases List.mem_cons.mp he with rfl | hmem
      · rw [exeIdxPairs, List.lookup_cons]
        simp
      · have hne : (e.seq == e0.seq) = false := by
          simp only [beq_eq_false_iff_ne, ne_eq]
          intro hk
          exact hnd.1 (hk ▸ List.mem_map_of_mem (fun x => x.seq) hmem)
        rw [exeIdxPairs, List.lookup_cons, hne]
        exact ih e hmem hnd.2

lemma mapIdxPairs_keys (k : Int) (ms : List SMap) :
    (mapIdxPairs k ms).map Prod.fst = ms.map (fun m => m.seq) := by
  induction ms generalizing k with
  | nil => rfl
  | cons m rest ih => simp [mapIdxPairs, ih]

lemma exeIdxPairs_keys (es : List SExe) :
    (exeIdxPairs es).map Prod.fst = es.map (fun e => e.seq) := by
  induction es with
  | nil => rfl
  | cons e rest ih => simp [exeIdxPairs, ih]

lemma mapIdxPairs_lookup_isSome (k : Int) (ms : List SMap) (j : Int)
    (h : j ∈ ms.map (fun m => m.seq)) : ((mapIdxPairs k ms).lookup j).isSome := by
  induction ms generalizing k with
  | nil => exact absurd h (by simp)
  | cons m rest ih =>
      rw [mapIdxPairs, List.lookup_cons]
      by_cases hj : j = m.seq
      · simp [hj]
      · have : (j == m.seq) = false := by simpa using hj
        rw [this]
        apply ih
        simp only [List.map_cons, List.mem_cons] at h
        exact h.resolve_left hj

lemma mapIdxPairs_lookup_lb (k : Int) (ms : List SMap) (j ns : Int)
    (h : (mapIdxPairs k ms).lookup j = some ns) : k + 1 ≤ ns := by
  induction ms generalizing k with
  | nil => exact absurd h (by simp [mapIdxPairs])
  | cons m rest ih =>
      rw [mapIdxPairs, List.lookup_cons] at h
      by_cases hj : (j == m.seq) = true
      · rw [hj] at h
        simp only [Option.some.injEq] at h
        omega
      · rw [Bool.not_eq_true] at hj
        rw [hj] at h
        have := ih (k + 1) h
        omega

lemma findExe_eq_none_of_not_mem (st : IoState) (p : String)
    (h : p ∉ st.exes.map (fun e => e.path)) : findExe st p = none := by
  unfold findExe
  rw [List.find?_eq_none]
  intro e he
  simp only [decide_eq_true_eq]
  intro hp
  exact h (hp ▸ List.mem_map_of_mem (fun e => e.path) he)

lemma hasMapTriple_eq_false_of_not_mem (st : IoState) (p : String) (off len : Nat)
    (h : (p, off, len) ∉ st.maps.map (fun m => (m.path, m.offset, m.length))) :
    hasMapTriple st p off len = false := by
  unfold hasMapTriple
  rw [List.any_eq_false]
  intro m hm
  by_contra hx
  simp only [Bool.not_eq_false, Bool.and_eq_true, decide_eq_true_eq] at hx
  exact h (by
    refine List.mem_map.mpr ⟨m, hm, ?_⟩
    simp [hx.1.1, hx.1.2, hx.2])

lemma readLoop_maps_phase (ms : List SMap) :
    ∀ (rc : ReadCtx) (st : IoState) (lineno : Nat) (rest : List Record),
      1 ≤ lineno →
      ((rc.rcMaps.map Prod.fst) ++ ms.map (fun m => m.seq)).Nodup →
      ((st.maps.map (fun m => (m.path, m.offset, m.length))) ++
          ms.map (fun m => (m.path, m.offset, m.length))).Nodup →
      readLoop rc st lineno
          (ms.map (fun m => Record.mapRec m.seq m.update_time m.offset m.length m.path) ++ rest) =
        readLoop { rc with rcMaps := rc.rcMaps ++ mapIdxPairs st.map_seq ms }
          { st with maps := st.maps ++ renumberMaps st.map_seq ms,
                    map_seq := st.map_seq + (ms.length : Int) }
          (lineno + ms.length) rest := by
  induction ms with
  | nil =>
      intro rc st lineno rest h1 h2 h3
      simp [mapIdxPairs, renumberMaps]
  | cons m ms ih =>
      intro rc st lineno rest h1 h2 h3
      have hkey : rc.rcMaps.lookup m.seq = none := by
        apply lookup_eq_none_of_not_mem
        intro hmem
        rcases List.nodup_append.mp h2 with ⟨-, -, hdisj⟩
        exact hdisj hmem (by simp)
      have htriple : hasMapTriple st m.path m.offset m.length = false := by
        apply hasMapTriple_eq_false_of_not_mem
        intro hmem
        rcases List.nodup_append.mp h3 with ⟨-, -, hdisj⟩
        exact hdisj hmem (by simp)
      have hl1 : ¬ (lineno + 1 = 1) := by omega
      have h2' : (((rc.rcMaps ++ [(m.seq, st.map_seq + 1)]).map Prod.fst) ++
          ms.map (fun m => m.seq)).Nodup := by
        simpa [List.append_assoc] using h2
      have h3' : (((st.maps ++ [(⟨m.path, m.offset, m.length, m.update_time,
            st.map_seq + 1, 1⟩ : SMap)]).map (fun m => (m.path, m.offset, m.length))) ++
          ms.map (fun m => (m.path, m.offset, m.length))).Nodup := by
        simpa [List.append_assoc] using h3
      rw [List.map_cons, List.cons_append]
      simp only [readLoop, hl1, if_false, read_map, hkey, Option.isSome_none,
        Bool.false_eq_true, if_false, htriple]
      rw [mapIdxPairs, renumberMaps]
      have e1 : rc.rcMaps ++ ((m.seq, st.map_seq + 1) :: mapIdxPairs (st.map_seq + 1) ms)
          = (rc.rcMaps ++ [(m.seq, st.map_seq + 1)]) ++ mapIdxPairs (st.map_seq + 1) ms := by
        simp
      have e2 : st.maps ++ ((⟨m.path, m.offset, m.length, m.update_time,
            st.map_seq + 1, 1⟩ : SMap) :: renumberMaps (st.map_seq + 1) ms)
          = (st.maps ++ [(⟨m.path, m.offset, m.length, m.update_time,
            st.map_seq + 1, 1⟩ : SMap)]) ++ renumberMaps (st.map_seq + 1) ms := by
        simp
      have e3 : st.map_seq + (((m :: ms).length : Nat) : Int)
          = (st.map_seq + 1) + (ms.length : Int) := by
        simp only [List.length_cons]
        push_cast
        ring
      have e4 : lineno + (m :: ms).length = (lineno + 1) + ms.length := by
        simp only [List.length_cons]
        omega
      rw [e1, e2, e3, e4]
      exact ih _ _ _ rest (by omega) h2' h3'

lemma readLoop_badexe_phase (bs : List (String × Int)) :
    ∀ (rc : ReadCtx) (st : IoState) (lineno : Nat) (rest : List Record),
      1 ≤ lineno →
      readLoop rc st lineno (bs.map (fun be => Record.badexeRec be.2 be.1) ++ rest) =
        readLoop rc st (lineno + bs.length) rest := by
  induction bs with
  | nil => intro rc st lineno rest h1; simp
  | cons be bs ih =>
      intro rc st lineno rest h1
      have hl1 : ¬ (lineno + 1 = 1) := by omega
      rw [List.map_cons, List.cons_append]
      simp only [readLoop, hl1, if_false]
      have e4 : lineno + (be :: bs).length = (lineno + 1) + bs.length := by
        simp only [List.length_cons]
        omega
      rw [e4]
      exact ih _ _ _ rest (by omega)

lemma readLoop_exes_phase (es : List SExe) :
    ∀ (rc : ReadCtx) (st : IoState) (lineno : Nat) (rest : List Record),
      1 ≤ lineno →
      ((rc.rcExes.map Prod.fst) ++ es.map (fun e => e.seq)).Nodup →
      ((st.exes.map (fun e => e.path)) ++ es.map (fun e => e.path)).Nodup →
      readLoop rc st lineno
          (es.map (fun e => Record.exeRec e.seq e.update_time e.time e.path) ++ rest) =
        readLoop { rc with rcExes := rc.rcExes ++ exeIdxPairs es }
          { st with exes := st.exes ++ renumberExes st.exe_seq es,
                    exe_seq := st.exe_seq + (es.length : Int) }
          (lineno + es.length) rest := by
  induction es with
  | nil =>
      intro rc st lineno rest h1 h2 h3
      simp [exeIdxPairs, renumberExes]
  | cons e es ih =>
      intro rc st lineno rest h1 h2 h3
      have hkey : rc.rcExes.lookup e.seq = none := by
        apply lookup_eq_none_of_not_mem
        intro hmem
        rcases List.nodup_append.mp h2 with ⟨-, -, hdisj⟩
        exact hdisj hmem (by simp)
      have hpath : findExe st e.path = none := by
        apply findExe_eq_none_of_not_mem
        intro hmem
        rcases List.nodup_append.mp h3 with ⟨-, -, hdisj⟩
        exact hdisj hmem (by simp)
      have hl1 : ¬ (lineno + 1 = 1) := by omega
      have h2' : (((rc.rcExes ++ [(e.seq, e.path)]).map Prod.fst) ++
          es.map (fun e => e.seq)).Nodup := by
        simpa [List.append_assoc] using h2
      have h3' : (((st.exes ++ [(⟨e.path, st.exe_seq + 1, e.time, e.update_time,
            -1, -1, []⟩ : SExe)]).map (fun e => e.path)) ++
          es.map (fun e => e.path)).Nodup := by
        simpa [List.append_assoc] using h3
      rw [List.map_cons, List.cons_append]
      simp only [readLoop, hl1, if_false, read_exe, hkey, hpath, Option.isSome_none,
        Bool.false_eq_true, if_false]
      rw [exeIdxPairs, renumberExes]
      have e1 : rc.rcExes ++ ((e.seq, e.path) :: exeIdxPairs es)
          = (rc.rcExes ++ [(e.seq, e.path)]) ++ exeIdxPairs es := by
        simp
      have e2 : st.exes ++ ((⟨e.path, st.exe_seq + 1, e.time, e.update_time,
            -1, -1, []⟩ : SExe) :: renumberExes (st.exe_seq + 1) es)
          = (st.exes ++ [(⟨e.path, st.exe_seq + 1, e.time, e.update_time,
            -1, -1, []⟩ : SExe)]) ++ renumberExes (st.exe_seq + 1) es := by
        simp
      have e3 : st.exe_seq + (((e :: es).length : Nat) : Int)
          = (st.exe_seq + 1) + (es.length : Int) := by
        simp only [List.length_cons]
        push_cast
        ring
      have e4 : lineno + (e :: es).length = (lineno + 1) + es.length := by
        simp only [List.length_cons]
        omega
      rw [e1, e2, e3, e4]
      exact ih _ _ _ rest (by omega) h2' h3'

/-- Translated exemaps of one exe: the referenced map's identity passes
through `rc->maps`, the probability is carried over. -/
def remapEms (prs : List (Int × Int)) (ems : List SExemap) : List SExemap :=
  ems.map (fun em => ⟨remapSeq prs em.mapSeq, em.prob⟩)

/-- The net state effect of one exe's EXEMAP records. -/
def applyEms (prs : List (Int × Int)) (p : String) (st : IoState)
    (ems : List SExemap) : IoState :=
  ems.foldl (fun acc em =>
    bumpMapRef (updateExe acc p (fun e =>
      { e with exemaps := e.exemaps ++ [⟨remapSeq prs em.mapSeq, em.prob⟩] }))
      (remapSeq prs em.mapSeq)) st

lemma readLoop_exemaps_one (ems : List SExemap) :
    ∀ (rc : ReadCtx) (st : IoState) (lineno : Nat) (rest : List Record) (i : Int) (p : String),
      1 ≤ lineno →
      rc.rcExes.lookup i = some p →
      (∀ em ∈ ems, (rc.rcMaps.lookup em.mapSeq).isSome) →
      readLoop rc st lineno
          (ems.map (fun em => Record.exemapRec i em.mapSeq em.prob) ++ rest) =
        readLoop rc (applyEms rc.rcMaps p st ems) (lineno + ems.length) rest := by
  induction ems with
  | nil => intro rc st lineno rest i p h1 h2 h3; simp [applyEms]
  | cons em ems ih =>
      intro rc st lineno rest i p h1 h2 h3
      obtain ⟨ns, hns⟩ := Option.isSome_iff_exists.mp (h3 em (by simp))
      have hrm : remapSeq rc.rcMaps em.mapSeq = ns := by
        unfold remapSeq
        rw [hns]
      have hl1 : ¬ (lineno + 1 = 1) := by omega
      rw [List.map_cons, List.cons_append]
      simp only [readLoop, hl1, if_false, read_exemap, h2, hns]
      have estep : applyEms rc.rcMaps p st (em :: ems) =
          applyEms rc.rcMaps p
            (bumpMapRef (updateExe st p (fun e =>
              { e with exemaps := e.exemaps ++ [⟨ns, em.prob⟩] })) ns) ems := by
        simp [applyEms, List.foldl_cons, hrm]
      rw [estep]
      have e4 : lineno + (em :: ems).length = (lineno + 1) + ems.length := by
        simp only [List.length_cons]
        omega
      rw [e4]
      exact ih _ _ _ rest i p (by omega) h2 (fun x hx => h3 x (by simp [hx]))

lemma readLoop_exemaps_phase (es : List SExe) :
    ∀ (rc : ReadCtx) (st : IoState) (lineno : Nat) (rest : List Record),
      1 ≤ lineno →
      (∀ e ∈ es, rc.rcExes.lookup e.seq = some e.path) →
      (∀ e ∈ es, ∀ em ∈ e.exemaps, (rc.rcMaps.lookup em.mapSeq).isSome) →
      readLoop rc st lineno
          (es.flatMap (fun e => e.exemaps.map (fun em =>
            Record.exemapRec e.seq em.mapSeq em.prob)) ++ rest) =
        readLoop rc (es.foldl (fun acc e => applyEms rc.rcMaps e.path acc e.exemaps) st)
          (lineno + (es.flatMap (fun e => e.exemaps.map (fun em =>
            Record.exemapRec e.seq em.mapSeq em.prob))).length) rest := by
  induction es with
  | nil => intro rc st lineno rest h1 h2 h3; simp
  | cons e es ih =>
      intro rc st lineno rest h1 h2 h3
      rw [List.flatMap_cons, List.append_assoc]
      rw [readLoop_exemaps_one e.exemaps rc st lineno _ e.seq e.path h1
        (h2 e (by simp)) (fun em hem => h3 e (by simp) em hem)]
      rw [ih _ _ _ rest (by omega) (fun x hx => h2 x (by simp [hx]))
        (fun x hx em hem => h3 x (by simp [hx]) em hem)]
      congr 1
      simp only [List.flatMap_cons, List.length_append, List.length_map]
      omega

/-- Apply a list of `preload_map_ref` bumps to the map store. -/
def bumpMany (maps : List SMap) (ns : List Int) : List SMap :=
  ns.foldl (fun l k => l.map (fun m =>
    if m.seq = k then { m with refcount := m.refcount + 1 } else m)) maps

lemma bumpMany_append (maps : List SMap) (a b : List Int) :
    bumpMany maps (a ++ b) = bumpMany (bumpMany maps a) b := by
  unfold bumpMany
  rw [List.foldl_append]

lemma applyEms_exes (prs : List (Int × Int)) (p : String) (ems : List SExemap) :
    ∀ st : IoState,
      (applyEms prs p st ems).exes =
        st.exes.map (fun e =>
          if e.path = p then { e with exemaps := e.exemaps ++ remapEms prs ems } else e) := by
  induction ems with
  | nil =>
      intro st
      simp [applyEms, remapEms]
  | cons em ems ih =>
      intro st
      have hstep : applyEms prs p st (em :: ems) =
          applyEms prs p
            (bumpMapRef (updateExe st p (fun e =>
              { e with exemaps := e.exemaps ++ [⟨remapSeq prs em.mapSeq, em.prob⟩] }))
              (remapSeq prs em.mapSeq)) ems := by
        simp [applyEms, List.foldl_cons]
      rw [hstep, ih]
      simp only [bumpMapRef, updateExe, List.map_map]
      apply List.map_congr_left
      intro e _
      by_cases hp : e.path = p
      · simp [Function.comp, hp, remapEms]
      · simp [Function.comp, hp]

lemma applyEms_maps (prs : List (Int × Int)) (p : String) (ems : List SExemap) :
    ∀ st : IoState,
      (applyEms prs p st ems).maps =
        bumpMany st.maps (ems.map (fun em => remapSeq prs em.mapSeq)) := by
  induction ems with
  | nil => intro st; simp [applyEms, bumpMany]
  | cons em ems ih =>
      intro st
      have hstep : applyEms prs p st (em :: ems) =
          applyEms prs p
            (bumpMapRef (updateExe st p (fun e =>
              { e with exemaps := e.exemaps ++ [⟨remapSeq prs em.mapSeq, em.prob⟩] }))
              (remapSeq prs em.mapSeq)) ems := by
        simp [applyEms, List.foldl_cons]
      rw [hstep, ih]
      simp [bumpMany, bumpMapRef, updateExe, List.foldl_cons]

lemma applyEms_other_fields (prs : List (Int × Int)) (p : String) (ems : List SExemap) :
    ∀ st : IoState,
      applyEms prs p st ems =
        { st with exes := (applyEms prs p st ems).exes,
                  maps := (applyEms prs p st ems).maps } := by
  induction ems with
  | nil => intro st; rfl
  | cons em ems ih =>
      intro st
      have hstep : applyEms prs p st (em :: ems) =
          applyEms prs p
            (bumpMapRef (updateExe st p (fun e =>
              { e with exemaps := e.exemaps ++ [⟨remapSeq prs em.mapSeq, em.prob⟩] }))
              (remapSeq prs em.mapSeq)) ems := by
        simp [applyEms, List.foldl_cons]
      rw [hstep, ih]
      rfl

lemma bumpMany_spec (ns : List Int) :
    ∀ maps : List SMap,
      bumpMany maps ns = maps.map (fun m =>
        { m with refcount := m.refcount + ns.count m.seq }) := by
  induction ns with
  | nil =>
      intro maps
      simp only [bumpMany, List.foldl_nil, List.count_nil]
      have : ∀ m : SMap, ({ m with refcount := m.refcount + 0 } : SMap) = m := by
        intro m
        simp
      rw [List.map_congr_left (fun m _ => this m)]
      simp
  | cons k ks ih =>
      intro maps
      have hstep : bumpMany maps (k :: ks) =
          bumpMany (maps.map (fun m =>
            if m.seq = k then { m with refcount := m.refcount + 1 } else m)) ks := by
        simp [bumpMany, List.foldl_cons]
      rw [hstep, ih, List.map_map]
      apply List.map_congr_left
      intro m _
      by_cases hk : m.seq = k
      · simp only [Function.comp, hk, if_pos]
        have : List.count k (k :: ks) = List.count k ks + 1 := by
          simp [List.count_cons]
        simp [this]
        omega
      · have hbeq : (k == m.seq) = false := by
          simp only [beq_eq_false_iff_ne, ne_eq]
          exact fun h => hk h.symm
        simp [Function.comp, hk, List.count_cons, hbeq]

/-- The exes as they stand after the exemap phase: fresh seqs and the
translated exemap lists. -/
def renumberExesFull (k : Int) (prs : List (Int × Int)) : List SExe → List SExe
  | [] => []
  | e :: es => ⟨e.path, k + 1, e.time, e.update_time, -1, -1, remapEms prs e.exemaps⟩ ::
      renumberExesFull (k + 1) prs es

/-- All map references made by the exemap phase, in order. -/
def allRefs (prs : List (Int × Int)) (es : List SExe) : List Int :=
  es.flatMap (fun e => e.exemaps.map (fun em => remapSeq prs em.mapSeq))

lemma foldl_applyEms_effect (es : List SExe) :
    ∀ (A : List SExe) (k : Int) (st : IoState) (prs : List (Int × Int)),
      st.exes = A ++ renumberExes k es →
      (∀ a ∈ A, a.path ∉ es.map (fun e => e.path)) →
      (es.map (fun e => e.path)).Nodup →
      (es.foldl (fun acc e => applyEms prs e.path acc e.exemaps) st).exes
          = A ++ renumberExesFull k prs es ∧
      (es.foldl (fun acc e => applyEms prs e.path acc e.exemaps) st).maps
          = bumpMany st.maps (allRefs prs es) := by
  induction es with
  | nil =>
      intro A k st prs hexes hA hnd
      refine ⟨?_, ?_⟩
      · simp only [List.foldl_nil, renumberExesFull, List.append_nil]
        simpa [renumberExes] using hexes
      · simp [allRefs, bumpMany]
  | cons e es ih =>
      intro A k st prs hexes hA hnd
      simp only [List.map_cons, List.nodup_cons] at hnd
      rw [List.foldl_cons]
      set st1 := applyEms prs e.path st e.exemaps with hst1
      have hst1exes : st1.exes = (A ++ [⟨e.path, k + 1, e.time, e.update_time, -1, -1,
          remapEms prs e.exemaps⟩]) ++ renumberExes (k + 1) es := by
        rw [hst1, applyEms_exes, hexes]
        rw [renumberExes]
        rw [List.map_append, List.map_cons]
        have hAmap : A.map (fun a =>
            if a.path = e.path then { a with exemaps := a.exemaps ++ remapEms prs e.exemaps }
            else a) = A := by
          rw [List.map_congr_left (g := id), List.map_id]
          intro a ha
          have : a.path ≠ e.path := fun hc => hA a ha (by simp [hc])
          simp [this]
        have hTail : (renumberExes (k + 1) es).map (fun a =>
            if a.path = e.path then { a with exemaps := a.exemaps ++ remapEms prs e.exemaps }
            else a) = renumberExes (k + 1) es := by
          rw [List.map_congr_left (g := id), List.map_id]
          intro a ha
          have hpathmem : a.path ∈ es.map (fun e => e.path) := by
            clear hst1 hexes hA hnd ih
            induction es generalizing k with
            | nil => exact absurd ha (by simp [renumberExes])
            | cons x xs ihx =>
                rw [renumberExes] at ha
                rcases List.mem_cons.mp ha with rfl | hmem
                · simp
                · simpa using Or.inr (by simpa using ihx (k + 1) hmem)
          have : a.path ≠ e.path := fun hc => hnd.1 (hc ▸ hpathmem)
          simp [this]
        rw [hAmap, hTail]
        simp
      have hst1maps : st1.maps = bumpMany st.maps
          (e.exemaps.map (fun em => remapSeq prs em.mapSeq)) := by
        rw [hst1, applyEms_maps]
      obtain ⟨hex, hmp⟩ := ih (A ++ [⟨e.path, k + 1, e.time, e.update_time, -1, -1,
          remapEms prs e.exemaps⟩]) (k + 1) st1 prs hst1exes
        (by
          intro a ha
          rcases List.mem_append.mp ha with h | h
          · intro hmem
            exact hA a h (by simp [hmem])
          · simp only [List.mem_singleton] at h
            subst h
            exact hnd.1)
        hnd.2
      refine ⟨?_, ?_⟩
      · rw [hex, renumberExesFull]
        simp
      · rw [hmp, hst1maps, ← bumpMany_append]
        congr 1

lemma readLoop_markov_phase (mks : List SMarkov) (fa fb : SMarkov → Int) :
    ∀ (rc : ReadCtx) (st : IoState) (lineno : Nat) (rest : List Record),
      1 ≤ lineno →
      (∀ mk ∈ mks, rc.rcExes.lookup (fa mk) = some mk.aPath) →
      (∀ mk ∈ mks, rc.rcExes.lookup (fb mk) = some mk.bPath) →
      (∀ mk ∈ mks, mk.ttl.length = 4 ∧ mk.weight.length = 16) →
      readLoop rc st lineno
          (mks.map (fun mk => Record.markovRec (fa mk) (fb mk) mk.time mk.ttl mk.weight)
            ++ rest) =
        readLoop rc
          { st with markovs := st.markovs ++ mks.map (fun mk =>
              ⟨mk.aPath, mk.bPath, mk.time, mk.ttl, mk.weight, 0, 0⟩) }
          (lineno + mks.length) rest := by
  induction mks with
  | nil => intro rc st lineno rest h1 h2 h3 h4; simp
  | cons mk mks ih =>
      intro rc st lineno rest h1 h2 h3 h4
      have hl1 : ¬ (lineno + 1 = 1) := by omega
      have hlen := h4 mk (by simp)
      have hnotshort : ¬ (mk.ttl.length < 4 ∨ mk.weight.length < 16) := by omega
      rw [List.map_cons, List.cons_append]
      simp only [readLoop, hl1, if_false, read_markov, h2 mk (by simp), h3 mk (by simp),
        hnotshort, if_false]
      have htake1 : mk.ttl.take 4 = mk.ttl := List.take_of_length_le (by omega)
      have htake2 : mk.weight.take 16 = mk.weight := List.take_of_length_le (by omega)
      rw [htake1, htake2]
      have e4 : lineno + (mk :: mks).length = (lineno + 1) + mks.length := by
        simp only [List.length_cons]
        omega
      rw [e4]
      rw [ih _ _ _ rest (by omega) (fun x hx => h2 x (by simp [hx]))
        (fun x hx => h3 x (by simp [hx])) (fun x hx => h4 x (by simp [hx]))]
      congr 1
      simp

/-! ### End-of-load cleanup and view correspondences -/

/-- The maps-list effect of unrefing a list of seqs in order. -/
def unrefMany (maps : List SMap) (ks : List Int) : List SMap :=
  ks.foldl (fun l k => l.filterMap (fun m =>
    if m.seq = k then
      (if m.refcount = 1 then none else some { m with refcount := m.refcount - 1 })
    else some m)) maps

lemma destroy_fold (prs : List (Int × Int)) :
    ∀ st : IoState,
      prs.foldl (fun acc pr => unrefMapSeq acc pr.2) st =
        { st with maps := unrefMany st.maps (prs.map Prod.snd) } := by
  induction prs with
  | nil => intro st; rfl
  | cons pr prs ih =>
      intro st
      rw [List.foldl_cons, ih]
      rfl

lemma destroyReadCtx_eq (rc : ReadCtx) (st : IoState) :
    destroyReadCtx rc st = { st with maps := unrefMany st.maps (rc.rcMaps.map Prod.snd) } :=
  destroy_fold rc.rcMaps st

lemma unref_step_no_removal (k : Int) :
    ∀ maps : List SMap,
      (∀ m ∈ maps, m.seq = k → 2 ≤ m.refcount) →
      maps.filterMap (fun m =>
        if m.seq = k then
          (if m.refcount = 1 then none else some { m with refcount := m.refcount - 1 })
        else some m) =
      maps.map (fun m =>
        if m.seq = k then { m with refcount := m.refcount - 1 } else m) := by
  intro maps
  induction maps with
  | nil => intro h; rfl
  | cons m maps ih =>
      intro h
      by_cases hk : m.seq = k
      · have h2 : ¬ (m.refcount = 1) := by
          have := h m (by simp) hk
          omega
        have hf : (if m.seq = k then
            (if m.refcount = 1 then none else some { m with refcount := m.refcount - 1 })
          else some m) = some { m with refcount := m.refcount - 1 } := by
          rw [if_pos hk, if_neg h2]
        simp only [List.filterMap_cons, List.map_cons, hf, if_pos hk]
        rw [ih (fun x hx hxk => h x (by simp [hx]) hxk)]
      · have hf : (if m.seq = k then
            (if m.refcount = 1 then none else some { m with refcount := m.refcount - 1 })
          else some m) = some m := if_neg hk
        simp only [List.filterMap_cons, List.map_cons, hf, if_neg hk]
        rw [ih (fun x hx hxk => h x (by simp [hx]) hxk)]

lemma unrefMany_once (ks : List Int) :
    ∀ maps : List SMap,
      ks.Nodup →
      (∀ m ∈ maps, m.seq ∈ ks → 2 ≤ m.refcount) →
      unrefMany maps ks = maps.map (fun m =>
        if m.seq ∈ ks then { m with refcount := m.refcount - 1 } else m) := by
  induction ks with
  | nil =>
      intro maps _ _
      simp [unrefMany]
  | cons k ks ih =>
      intro maps hnd h
      simp only [List.nodup_cons] at hnd
      have hstep : unrefMany maps (k :: ks) =
          unrefMany (maps.filterMap (fun m =>
            if m.seq = k then
              (if m.refcount = 1 then none else some { m with refcount := m.refcount - 1 })
            else some m)) ks := by
        simp [unrefMany, List.foldl_cons]
      rw [hstep, unref_step_no_removal k maps (fun m hm hk => h m hm (by simp [hk]))]
      rw [ih _ hnd.2 ?hrc]
      case hrc =>
        intro m' hm'
        rcases List.mem_map.mp hm' with ⟨m, hm, rfl⟩
        by_cases hk : m.seq = k
        · intro hmem
          simp only [hk, if_pos] at hmem
          exact absurd hmem hnd.1
        · simp only [hk, if_neg, if_false]
          intro hmem
          exact h m hm (by simp [hmem])
      rw [List.map_map]
      apply List.map_congr_left
      intro m _
      by_cases hk : m.seq = k
      · simp [Function.comp, hk, hnd.1]
      · by_cases hks : m.seq ∈ ks
        · simp [Function.comp, hk, hks]
        · simp [Function.comp, hk, hks]

lemma mapIdxPairs_snd_lb (ms : List SMap) :
    ∀ k v, v ∈ (mapIdxPairs k ms).map Prod.snd → k + 1 ≤ v := by
  induction ms with
  | nil => intro k v h; exact absurd h (by simp [mapIdxPairs])
  | cons m ms ih =>
      intro k v h
      simp only [mapIdxPairs, List.map_cons] at h
      rcases List.mem_cons.mp h with rfl | hmem
      · omega
      · have := ih (k + 1) v hmem
        omega

lemma mapIdxPairs_snd_nodup (ms : List SMap) :
    ∀ k, ((mapIdxPairs k ms).map Prod.snd).Nodup := by
  induction ms with
  | nil => intro k; simp [mapIdxPairs]
  | cons m ms ih =>
      intro k
      rw [mapIdxPairs, List.map_cons, List.nodup_cons]
      refine ⟨?_, ih (k + 1)⟩
      intro hmem
      have := mapIdxPairs_snd_lb ms (k + 1) (k + 1) hmem
      omega

/-- Each re-registered map's fresh seq is what the identity translation
assigns to its old seq. -/
lemma renumber_pairing (ms : List SMap) :
    ∀ k, (ms.map (fun m => m.seq)).Nodup →
      ∀ m' ∈ renumberMaps k ms, ∃ m ∈ ms,
        (mapIdxPairs k ms).lookup m.seq = some m'.seq := by
  induction ms with
  | nil => intro k _ m' h; exact absurd h (by simp [renumberMaps])
  | cons m ms ih =>
      intro k hnd m' hm'
      simp only [List.map_cons, List.nodup_cons] at hnd
      rw [renumberMaps] at hm'
      rcases List.mem_cons.mp hm' with rfl | hmem
      · refine ⟨m, by simp, ?_⟩
        rw [mapIdxPairs, List.lookup_cons]
        simp
      · obtain ⟨m0, hm0, hlk⟩ := ih (k + 1) hnd.2 m' hmem
        refine ⟨m0, by simp [hm0], ?_⟩
        rw [mapIdxPairs, List.lookup_cons]
        have : (m0.seq == m.seq) = false := by
          simp only [beq_eq_false_iff_ne, ne_eq]
          intro hc
          exact hnd.1 (hc ▸ List.mem_map_of_mem (fun m => m.seq) hm0)
        rw [this]
        exact hlk

/-- `find?` by seq only sees the seq and view columns. -/
lemma find_seq_view_congr (L : List SMap) :
    ∀ L' : List SMap,
      L.map (fun m => m.seq) = L'.map (fun m => m.seq) →
      L.map mapView = L'.map mapView →
      ∀ ns : Int, (L.find? (fun m => m.seq = ns)).map mapView =
        (L'.find? (fun m => m.seq = ns)).map mapView := by
  induction L with
  | nil =>
      intro L' hseq hview ns
      cases L' with
      | nil => rfl
      | cons x xs => exact absurd hseq (by simp)
  | cons m L ih =>
      intro L' hseq hview ns
      cases L' with
      | nil => exact absurd hseq (by simp)
      | cons m' L'' =>
          simp only [List.map_cons, List.cons.injEq] at hseq hview
          by_cases hns : m.seq = ns
          · have hns' : m'.seq = ns := hseq.1 ▸ hns
            have e1 : List.find? (fun x => decide (x.seq = ns)) (m :: L) = some m := by
              rw [List.find?_cons]
              simp [hns]
            have e2 : List.find? (fun x => decide (x.seq = ns)) (m' :: L'') = some m' := by
              rw [List.find?_cons]
              simp [hns']
            rw [e1, e2]
            simp [hview.1]
          · have hns' : ¬ (m'.seq = ns) := hseq.1 ▸ hns
            have e1 : List.find? (fun x => decide (x.seq = ns)) (m :: L) =
                List.find? (fun x => decide (x.seq = ns)) L := by
              rw [List.find?_cons]
              simp [hns]
            have e2 : List.find? (fun x => decide (x.seq = ns)) (m' :: L'') =
                List.find? (fun x => decide (x.seq = ns)) L'' := by
              rw [List.find?_cons]
              simp [hns']
            rw [e1, e2]
            exact ih L'' hseq.2 hview.2 ns

/-- Looking a map up by its old seq and chasing the translation lands on
the re-registered copy (same view). -/
lemma find_renumber (ms : List SMap) :
    ∀ k j m₀, (ms.map (fun m => m.seq)).Nodup →
      ms.find? (fun m => m.seq = j) = some m₀ →
      ∃ ns, (mapIdxPairs k ms).lookup j = some ns ∧
        ((renumberMaps k ms).find? (fun m => m.seq = ns)).map mapView =
          some (mapView m₀) := by
  induction ms with
  | nil => intro k j m₀ _ h; exact absurd h (by simp)
  | cons m ms ih =>
      intro k j m₀ hnd hfind
      simp only [List.map_cons, List.nodup_cons] at hnd
      rw [List.find?_cons] at hfind
      by_cases hj : m.seq = j
      · rw [(by simp [hj] : (decide (m.seq = j)) = true)] at hfind
        refine ⟨k + 1, ?_, ?_⟩
        · rw [mapIdxPairs, List.lookup_cons]
          have : (j == m.seq) = true := by simp [hj]
          rw [this]
        · rw [renumberMaps, List.find?_cons]
          simp only [Option.some.injEq] at hfind
          subst hfind
          simp [mapView]
      · rw [(by simp [hj] : (decide (m.seq = j)) = false)] at hfind
        obtain ⟨ns, hlk, hfv⟩ := ih (k + 1) j m₀ hnd.2 hfind
        refine ⟨ns, ?_, ?_⟩
        · rw [mapIdxPairs, List.lookup_cons]
          have : (j == m.seq) = false := by
            simp only [beq_eq_false_iff_ne, ne_eq]
            exact fun h => hj h.symm
          rw [this]
          exact hlk
        · rw [renumberMaps, List.find?_cons]
          have hub := mapIdxPairs_lookup_lb (k + 1) ms j ns hlk
          have hne : ¬ ((k + 1 : Int) = ns) := by omega
          rw [(by simp [hne] : (decide ((k + 1 : Int) = ns)) = false)]
          exact hfv

/-- The canonical-endpoint enumeration is a permutation of the full
edge list when every edge's `a` endpoint is a stored exe. -/
lemma flatMap_filter_perm (keys : List String) :
    ∀ l : List SMarkov,
      keys.Nodup →
      (∀ mk ∈ l, mk.aPath ∈ keys) →
      (keys.flatMap (fun p => l.filter (fun mk => mk.aPath = p))).Perm l := by
  induction keys with
  | nil =>
      intro l _ h
      cases l with
      | nil => simp
      | cons mk l' => exact absurd (h mk (by simp)) (by simp)
  | cons p ps ih =>
      intro l hnd h
      simp only [List.nodup_cons] at hnd
      rw [List.flatMap_cons]
      have hrest : ps.flatMap (fun q => l.filter (fun mk => mk.aPath = q)) =
          ps.flatMap (fun q => (l.filter (fun mk => !(decide (mk.aPath = p)))).filter
            (fun mk => mk.aPath = q)) := by
        rw [List.flatMap_def, List.flatMap_def]
        congr 1
        apply List.map_congr_left
        intro q hq
        rw [List.filter_filter]
        apply List.filter_congr
        intro mk _
        by_cases hmk : mk.aPath = q
        · have hqp : ¬ (q = p) := fun hc => hnd.1 (hc ▸ hq)
          simp [hmk, hqp]
        · simp [hmk]
      rw [hrest]
      have hperm2 := ih (l.filter (fun mk => !(decide (mk.aPath = p)))) hnd.2 ?hmem
      case hmem =>
        intro mk hmk
        rcases List.mem_filter.mp hmk with ⟨hmem, hneg⟩
        have := h mk hmem
        simp only [Bool.not_eq_true', decide_eq_false_iff_not] at hneg
        rcases List.mem_cons.mp this with hc | hc
        · exact absurd hc hneg
        · exact hc
      exact List.Perm.trans (List.Perm.append_left _ hperm2)
        (List.filter_append_perm _ l)

lemma foldl_applyEms_shape (es : List SExe) :
    ∀ (st : IoState) (prs : List (Int × Int)),
      es.foldl (fun acc e => applyEms prs e.path acc e.exemaps) st =
        { st with
          exes := (es.foldl (fun acc e => applyEms prs e.path acc e.exemaps) st).exes,
          maps := (es.foldl (fun acc e => applyEms prs e.path acc e.exemaps) st).maps } := by
  induction es with
  | nil => intro st prs; rfl
  | cons e es ih =>
      intro st prs
      rw [List.foldl_cons, ih (applyEms prs e.path st e.exemaps) prs]
      rw [applyEms_other_fields prs e.path e.exemaps st]

/-- The exemap phase in explicit form: the freshly registered exes (no
exemaps yet) pick up their translated exemap lists, and the maps absorb
one reference per exemap. -/
lemma readLoop_exemaps_phase_explicit (es : List SExe) (rcm : List (Int × Int))
    (rce : List (Int × String)) (st : IoState) (lineno : Nat) (rest : List Record)
    (h1 : 1 ≤ lineno)
    (h2 : ∀ e ∈ es, rce.lookup e.seq = some e.path)
    (h3 : ∀ e ∈ es, ∀ em ∈ e.exemaps, (rcm.lookup em.mapSeq).isSome)
    (h4 : st.exes = renumberExes 0 es)
    (h5 : (es.map (fun e => e.path)).Nodup) :
    readLoop ⟨rcm, rce⟩ st lineno
        (es.flatMap (fun e => e.exemaps.map (fun em =>
          Record.exemapRec e.seq em.mapSeq em.prob)) ++ rest) =
      readLoop ⟨rcm, rce⟩
        { st with exes := renumberExesFull 0 rcm es,
                  maps := bumpMany st.maps (allRefs rcm es) }
        (lineno + (es.flatMap (fun e => e.exemaps.map (fun em =>
          Record.exemapRec e.seq em.mapSeq em.prob))).length) rest := by
  rw [readLoop_exemaps_phase es ⟨rcm, rce⟩ st lineno rest h1 h2 h3]
  congr 1
  have heff := foldl_applyEms_effect es [] 0 st rcm (by simpa using h4) (by simp) h5
  rw [foldl_applyEms_shape es st rcm]
  rw [heff.1, heff.2]
  simp

lemma renumberMaps_view (ms : List SMap) :
    ∀ k, (renumberMaps k ms).map mapView = ms.map mapView := by
  induction ms with
  | nil => intro k; rfl
  | cons m ms ih =>
      intro k
      rw [renumberMaps, List.map_cons, List.map_cons, ih (k + 1)]
      rfl

lemma renumberMaps_seqs (ms : List SMap) :
    ∀ k, (renumberMaps k ms).map (fun m => m.seq) = (mapIdxPairs k ms).map Prod.snd := by
  induction ms with
  | nil => intro k; rfl
  | cons m ms ih =>
      intro k
      rw [renumberMaps, mapIdxPairs, List.map_cons, List.map_cons, ih (k + 1)]

lemma renumberMaps_refcount (ms : List SMap) :
    ∀ k, ∀ m ∈ renumberMaps k ms, m.refcount = 1 := by
  induction ms with
  | nil => intro k m h; exact absurd h (by simp [renumberMaps])
  | cons m0 ms ih =>
      intro k m h
      rw [renumberMaps] at h
      rcases List.mem_cons.mp h with rfl | hmem
      · rfl
      · exact ih (k + 1) m hmem

lemma map_preserve_view_seq (L : List SMap) (f : SMap → SMap)
    (hf : ∀ m, mapView (f m) = mapView m ∧ (f m).seq = m.seq) :
    (L.map f).map mapView = L.map mapView ∧
    (L.map f).map (fun m => m.seq) = L.map (fun m => m.seq) := by
  constructor
  · rw [List.map_map]
    exact List.map_congr_left (fun m _ => (hf m).1)
  · rw [List.map_map]
    exact List.map_congr_left (fun m _ => (hf m).2)

/-- The views of the re-read exes agree with the original ones, given
the map-lookup correspondence for every exemap. -/
lemma renumberExesFull_views (es : List SExe) (prs : List (Int × Int))
    (stFin sOrig : IoState)
    (hcorr : ∀ e ∈ es, ∀ em ∈ e.exemaps,
      (findMapBySeq stFin (remapSeq prs em.mapSeq)).map mapView =
        (findMapBySeq sOrig em.mapSeq).map mapView) :
    ∀ k, (renumberExesFull k prs es).map (exeView stFin) = es.map (exeView sOrig) := by
  induction es with
  | nil => intro k; rfl
  | cons e es ih =>
      intro k
      rw [renumberExesFull, List.map_cons, List.map_cons]
      have hh : exeView stFin ⟨e.path, k + 1, e.time, e.update_time, -1, -1,
          remapEms prs e.exemaps⟩ = exeView sOrig e := by
        show (e.path, e.time, e.update_time,
            (remapEms prs e.exemaps).map (exemapView stFin)) =
          (e.path, e.time, e.update_time, e.exemaps.map (exemapView sOrig))
        simp only [Prod.mk.injEq]
        refine ⟨trivial, trivial, trivial, ?_⟩
        unfold remapEms
        rw [List.map_map]
        apply List.map_congr_left
        intro em hem
        show exemapView stFin ⟨remapSeq prs em.mapSeq, em.prob⟩ = exemapView sOrig em
        unfold exemapView
        simp only [Prod.mk.injEq]
        exact ⟨hcorr e (by simp) em hem, trivial⟩
      rw [hh, ih (fun e' he' em hem => hcorr e' (by simp [he']) em hem) (k + 1)]

lemma markovView_ignores_state (st : IoState) :
    (markovRecomputeState st).markovs.map markovView = st.markovs.map markovView := by
  unfold markovRecomputeState
  simp only [List.map_map]
  exact List.map_congr_left (fun mk _ => rfl)

lemma exeIdxPairs_lookup_by_path (s : IoState) (p : String)
    (hmem : p ∈ s.exes.map (fun e => e.path))
    (hnd : (s.exes.map (fun e => e.seq)).Nodup) :
    (exeIdxPairs s.exes).lookup (exeSeqOf s p) = some p := by
  obtain ⟨e0, he0mem, he0p⟩ := List.mem_map.mp hmem
  have hsome : (s.exes.find? (fun e => e.path = p)).isSome :=
    List.find?_isSome.mpr ⟨e0, he0mem, by simp [he0p]⟩
  obtain ⟨e1, he1⟩ := Option.isSome_iff_exists.mp hsome
  have he1mem : e1 ∈ s.exes := List.mem_of_find?_eq_some he1
  have he1p : e1.path = p := by simpa using List.find?_some he1
  unfold exeSeqOf findExe
  rw [he1]
  rw [exeIdxPairs_lookup s.exes e1 he1mem hnd, he1p]

/-- C3.  For every well-formed state, writing it with `write_state` and
reading the produced records into a fresh state succeeds and restores —
up to the re-assigned seq numbers — everything the file carries: the
global time, each map's `(path, offset, length, update_time)` (in store
order), each exe with its path, cumulative `time`, `update_time` and its
exemaps (each re-attached to the map with the same persistent attributes
and carrying the same `prob`), and every markov edge's endpoints, `time`,
`time_to_leave` and `weight` (as a permutation, since edges are written
via the canonical-endpoint iteration); the `bad_exes` table is discarded
and comes back empty. -/
theorem state_roundtrip (s : IoState) (wf : WfState s) :
    (read_state (write_state s)).1 = none ∧
    (read_state (write_state s)).2.time = s.time ∧
    (read_state (write_state s)).2.maps.map mapView = s.maps.map mapView ∧
    (read_state (write_state s)).2.exes.map (exeView (read_state (write_state s)).2) =
      s.exes.map (exeView s) ∧
    ((read_state (write_state s)).2.markovs.map markovView).Perm
      (s.markovs.map markovView) ∧
    (read_state (write_state s)).2.bad_exes = [] := by
  obtain ⟨wf1, wf2, wf3, wf4, wf5, wf6, wf7, wf8⟩ := wf
  have hforeach_mem : ∀ mk ∈ markov_foreach_list s, mk ∈ s.markovs := by
    intro mk hmk
    rcases List.mem_flatMap.mp hmk with ⟨e, _, hf⟩
    exact (List.mem_filter.mp hf).1
  -- the written file, association to the right
  have e0 : write_state s = Record.preloadHdr VERSION_MAJOR s.time ::
      (s.maps.map (fun m => Record.mapRec m.seq m.update_time m.offset m.length m.path) ++
       (s.bad_exes.map (fun be => Record.badexeRec be.2 be.1) ++
        (s.exes.map (fun e => Record.exeRec e.seq e.update_time e.time e.path) ++
         (s.exes.flatMap (fun e => e.exemaps.map (fun em =>
            Record.exemapRec e.seq em.mapSeq em.prob)) ++
          ((markov_foreach_list s).map (fun mk =>
            Record.markovRec (exeSeqOf s mk.aPath) (exeSeqOf s mk.bPath)
              mk.time mk.ttl mk.weight) ++ []))))) := by
    rw [write_state]
    simp [List.append_assoc]
  -- the header step
  have e1 : readLoop ⟨[], []⟩ initState 0 (write_state s) =
      readLoop ⟨[], []⟩ (⟨s.time, [], [], [], [], 0, 0, s.time, 0, false⟩ : IoState) 1
        (s.maps.map (fun m => Record.mapRec m.seq m.update_time m.offset m.length m.path) ++
         (s.bad_exes.map (fun be => Record.badexeRec be.2 be.1) ++
          (s.exes.map (fun e => Record.exeRec e.seq e.update_time e.time e.path) ++
           (s.exes.flatMap (fun e => e.exemaps.map (fun em =>
              Record.exemapRec e.seq em.mapSeq em.prob)) ++
            ((markov_foreach_list s).map (fun mk =>
              Record.markovRec (exeSeqOf s mk.aPath) (exeSeqOf s mk.bPath)
                mk.time mk.ttl mk.weight) ++ []))))) := by
    rw [e0]
    simp only [readLoop, initState]
    norm_num
  -- the five record phases, chained stepwise
  have c1 := e1.trans
    (readLoop_maps_phase s.maps ⟨[], []⟩
      (⟨s.time, [], [], [], [], 0, 0, s.time, 0, false⟩ : IoState) 1 _
      (by norm_num) (by simpa using wf4) (by simpa using wf3))
  have c2 := c1.trans (readLoop_badexe_phase s.bad_exes _ _ _ _ (by omega))
  have c3 := c2.trans
    (readLoop_exes_phase s.exes _ _ _ _ (by omega)
      (by simpa using wf2) (by simpa using wf1))
  have c4 := c3.trans
    (readLoop_exemaps_phase_explicit s.exes _ _ _ _ _ (by omega)
      (by
        intro e he
        simpa using exeIdxPairs_lookup s.exes e he wf2)
      (by
        intro e he em hem
        obtain ⟨m, hm, hms⟩ := wf5 e he em hem
        have : em.mapSeq ∈ s.maps.map (fun m => m.seq) :=
          List.mem_map.mpr ⟨m, hm, hms⟩
        simpa using mapIdxPairs_lookup_isSome 0 s.maps em.mapSeq this)
      (by simp)
      wf1)
  have hchain := c4.trans
    ((readLoop_markov_phase (markov_foreach_list s)
      (fun mk => exeSeqOf s mk.aPath) (fun mk => exeSeqOf s mk.bPath)
      _ _ _ _ (by omega)
      (by
        intro mk hmk
        simpa using exeIdxPairs_lookup_by_path s mk.aPath
          (wf7 mk (hforeach_mem mk hmk)).1 wf2)
      (by
        intro mk hmk
        simpa using exeIdxPairs_lookup_by_path s mk.bPath
          (wf7 mk (hforeach_mem mk hmk)).2.1 wf2)
      (fun mk hmk => wf8 mk (hforeach_mem mk hmk))).trans rfl)
  obtain ⟨rcF, stF, hloop2, prcm, ptime, pexes, pmaps, pmk, pbad, plastrun⟩ :
      ∃ rcF stF, readLoop ⟨[], []⟩ initState 0 (write_state s) = (none, rcF, stF) ∧
        rcF.rcMaps = mapIdxPairs 0 s.maps ∧
        stF.time = s.time ∧
        stF.exes = renumberExesFull 0 (mapIdxPairs 0 s.maps) s.exes ∧
        stF.maps = bumpMany (renumberMaps 0 s.maps)
          (allRefs (mapIdxPairs 0 s.maps) s.exes) ∧
        stF.markovs = (markov_foreach_list s).map (fun mk =>
          ⟨mk.aPath, mk.bPath, mk.time, mk.ttl, mk.weight, 0, 0⟩) ∧
        stF.bad_exes = [] ∧
        stF.last_running_timestamp = 0 :=
    ⟨_, _, hchain, by simp, by simp, by simp, by simp, by simp, by simp, by simp⟩
  have hrs : read_state (write_state s) = (none,
      markovRecomputeState (destroyReadCtx rcF stF)) := by
    unfold read_state
    rw [hloop2]
  -- the final state and its fields
  have hdestroy : destroyReadCtx rcF stF =
      { stF with maps := unrefMany stF.maps ((mapIdxPairs 0 s.maps).map Prod.snd) } := by
    rw [destroyReadCtx_eq, prcm]
  -- every re-registered map is referenced at least once
  have hrefd : ∀ m' ∈ bumpMany (renumberMaps 0 s.maps)
      (allRefs (mapIdxPairs 0 s.maps) s.exes),
      m'.seq ∈ (mapIdxPairs 0 s.maps).map Prod.snd → 2 ≤ m'.refcount := by
    rw [bumpMany_spec]
    intro m' hm' _
    rcases List.mem_map.mp hm' with ⟨m2, hm2, rfl⟩
    have hrc1 : m2.refcount = 1 := renumberMaps_refcount s.maps 0 m2 hm2
    obtain ⟨m, hm, hlk⟩ := renumber_pairing s.maps 0 wf4 m2 hm2
    obtain ⟨e, he, em, hem, hems⟩ := wf6 m hm
    have hremap : remapSeq (mapIdxPairs 0 s.maps) em.mapSeq = m2.seq := by
      unfold remapSeq
      rw [hems, hlk]
    have hmemref : m2.seq ∈ allRefs (mapIdxPairs 0 s.maps) s.exes := by
      unfold allRefs
      exact List.mem_flatMap.mpr ⟨e, he, List.mem_map.mpr ⟨em, hem, hremap⟩⟩
    have hcnt : 0 < (allRefs (mapIdxPairs 0 s.maps) s.exes).count m2.seq :=
      List.count_pos_iff.mpr hmemref
    simp only
    omega
  have hunref : unrefMany stF.maps ((mapIdxPairs 0 s.maps).map Prod.snd) =
      (bumpMany (renumberMaps 0 s.maps) (allRefs (mapIdxPairs 0 s.maps) s.exes)).map
        (fun m => if m.seq ∈ (mapIdxPairs 0 s.maps).map Prod.snd then
          { m with refcount := m.refcount - 1 } else m) := by
    rw [pmaps]
    exact unrefMany_once _ _ (mapIdxPairs_snd_nodup s.maps 0) hrefd
  -- the final maps keep the seq column and the persisted view
  have hview_bump := map_preserve_view_seq (renumberMaps 0 s.maps)
    (fun m => { m with refcount := m.refcount + (allRefs (mapIdxPairs 0 s.maps) s.exes).count m.seq }) (fun m => ⟨rfl, rfl⟩)
  have hview_dec := map_preserve_view_seq
    ((renumberMaps 0 s.maps).map (fun m => { m with refcount := m.refcount + (allRefs (mapIdxPairs 0 s.maps) s.exes).count m.seq }))
    (fun m => if m.seq ∈ (mapIdxPairs 0 s.maps).map Prod.snd then { m with refcount := m.refcount - 1 } else m)
    (fun m => by
      by_cases h : m.seq ∈ (mapIdxPairs 0 s.maps).map Prod.snd <;> simp [h, mapView])
  have hfinmaps : (markovRecomputeState (destroyReadCtx rcF stF)).maps =
      (bumpMany (renumberMaps 0 s.maps) (allRefs (mapIdxPairs 0 s.maps) s.exes)).map
        (fun m => if m.seq ∈ (mapIdxPairs 0 s.maps).map Prod.snd then
          { m with refcount := m.refcount - 1 } else m) := by
    rw [hdestroy]
    unfold markovRecomputeState
    simp only
    exact hunref
  have hfinmaps_view : (markovRecomputeState (destroyReadCtx rcF stF)).maps.map mapView =
      s.maps.map mapView := by
    rw [hfinmaps, bumpMany_spec, hview_dec.1, hview_bump.1, renumberMaps_view]
  have hfinmaps_seq : (markovRecomputeState (destroyReadCtx rcF stF)).maps.map
      (fun m => m.seq) = (renumberMaps 0 s.maps).map (fun m => m.seq) := by
    rw [hfinmaps, bumpMany_spec, hview_dec.2, hview_bump.2]
  have hrenview : (renumberMaps 0 s.maps).map mapView = s.maps.map mapView :=
    renumberMaps_view s.maps 0
  -- the exemap→map correspondence in the final state
  have hcorr : ∀ e ∈ s.exes, ∀ em ∈ e.exemaps,
      (findMapBySeq (markovRecomputeState (destroyReadCtx rcF stF))
        (remapSeq (mapIdxPairs 0 s.maps) em.mapSeq)).map mapView =
      (findMapBySeq s em.mapSeq).map mapView := by
    intro e he em hem
    obtain ⟨m, hm, hms⟩ := wf5 e he em hem
    have hsome : (s.maps.find? (fun m => m.seq = em.mapSeq)).isSome :=
      List.find?_isSome.mpr ⟨m, hm, by simp [hms]⟩
    obtain ⟨m₀, hm₀⟩ := Option.isSome_iff_exists.mp hsome
    obtain ⟨ns, hlk, hfv⟩ := find_renumber s.maps 0 em.mapSeq m₀ wf4 hm₀
    have hremap : remapSeq (mapIdxPairs 0 s.maps) em.mapSeq = ns := by
      unfold remapSeq
      rw [hlk]
    rw [hremap]
    unfold findMapBySeq
    rw [hm₀]
    have := find_seq_view_congr (markovRecomputeState (destroyReadCtx rcF stF)).maps
      (renumberMaps 0 s.maps) hfinmaps_seq (hfinmaps_view.trans hrenview.symm) ns
    rw [this, hfv]
    rfl
  -- assemble the six conjuncts
  rw [hrs]
  refine ⟨rfl, ?_, ?_, ?_, ?_, ?_⟩
  · show (markovRecomputeState (destroyReadCtx rcF stF)).time = s.time
    rw [hdestroy]
    unfold markovRecomputeState
    simpa using ptime
  · exact hfinmaps_view
  · show (markovRecomputeState (destroyReadCtx rcF stF)).exes.map
        (exeView (markovRecomputeState (destroyReadCtx rcF stF))) =
      s.exes.map (exeView s)
    have hexesfin : (markovRecomputeState (destroyReadCtx rcF stF)).exes =
        renumberExesFull 0 (mapIdxPairs 0 s.maps) s.exes := by
      rw [hdestroy]
      unfold markovRecomputeState
      simpa using pexes
    rw [hexesfin]
    exact renumberExesFull_views s.exes (mapIdxPairs 0 s.maps) _ s hcorr 0
  · show ((markovRecomputeState (destroyReadCtx rcF stF)).markovs.map markovView).Perm
      (s.markovs.map markovView)
    rw [markovView_ignores_state]
    have hmkd : (destroyReadCtx rcF stF).markovs = stF.markovs := by
      rw [hdestroy]
    rw [hmkd, pmk, List.map_map]
    have hviews : (markov_foreach_list s).map
        (markovView ∘ fun mk => (⟨mk.aPath, mk.bPath, mk.time, mk.ttl, mk.weight,
          0, 0⟩ : SMarkov)) = (markov_foreach_list s).map markovView :=
      List.map_congr_left (fun mk _ => rfl)
    rw [hviews]
    refine List.Perm.map markovView ?_
    unfold markov_foreach_list
    have : s.exes.flatMap (fun e => s.markovs.filter (fun mk => mk.aPath = e.path)) =
        (s.exes.map (fun e => e.path)).flatMap
          (fun p => s.markovs.filter (fun mk => mk.aPath = p)) := by
      rw [List.flatMap_map]
    rw [this]
    exact flatMap_filter_perm (s.exes.map (fun e => e.path)) s.markovs wf1
      (fun mk hmk => (wf7 mk hmk).1)
  · show (markovRecomputeState (destroyReadCtx rcF stF)).bad_exes = []
    rw [hdestroy]
    unfold markovRecomputeState
    simpa using pbad

/-- Witness for `state_roundtrip` at a concrete two-exe state with one
shared map, one exemap each, one markov edge, and a populated
`bad_exes` table. -/
theorem state_roundtrip_witness :
    (read_state (write_state
      ⟨7, [⟨"/bin/a", 2, 30, 5, 4, -1, [⟨5, (1 : ℚ)/2⟩]⟩,
           ⟨"/bin/b", 3, 40, 6, 4, -1, [⟨5, (3 : ℚ)/4⟩]⟩],
        [⟨"/lib/libc.so", 0, 4096, 5, 5, 2⟩],
        [⟨"/bin/a", "/bin/b", 9, [0, 1, 2, 3],
          [0, 0, 0, 0, 1, 1, 0, 0, 0, 0, 1, 1, 0, 0, 0, 0], 0, 7⟩],
        [("/tmp/reject", 12)], 5, 3, 7, 4, true⟩)).1 = none :=
  (state_roundtrip
    ⟨7, [⟨"/bin/a", 2, 30, 5, 4, -1, [⟨5, (1 : ℚ)/2⟩]⟩,
         ⟨"/bin/b", 3, 40, 6, 4, -1, [⟨5, (3 : ℚ)/4⟩]⟩],
      [⟨"/lib/libc.so", 0, 4096, 5, 5, 2⟩],
      [⟨"/bin/a", "/bin/b", 9, [0, 1, 2, 3],
        [0, 0, 0, 0, 1, 1, 0, 0, 0, 0, 1, 1, 0, 0, 0, 0], 0, 7⟩],
      [("/tmp/reject", 12)], 5, 3, 7, 4, true⟩
    (by
      refine ⟨?_, ?_, ?_, ?_, ?_, ?_, ?_, ?_⟩ <;> decide)).1

end Preload
